import Mathlib

/-!
# Verification of the `otto::itc` state-broadcast core (`src/itc/itc.hpp`)

A shallow embedding of the inter-thread-communication core: a `Producer`
broadcasts `State` snapshots through `Channel`s to `Consumer`s, and the three
participant kinds keep bidirectional non-owning links that construction and
destruction must keep consistent.

The embedding represents each live participant by a numeric identifier and a
record holding exactly the member fields of the corresponding C++ class:

* `ChannelData`   — `consumers_ : std::vector<Consumer*>`, `producer_ : Producer*`
* `ProducerData`  — `channels_ : std::vector<Channel*>`
* `ConsumerData`  — `channel_ : Channel*`, `state_ : State`

A `World` maps identifiers to the data of the live objects of each kind
(`none` = no such live object, i.e. a destroyed or never-created participant).
Each C++ member function, constructor and destructor of the source becomes an
explicit `World`-transforming operation; an operation returns `none` exactly
when the C++ code would dereference a pointer to a destroyed object
(undefined behaviour) or when a constructor would reuse a live identifier.
-/

namespace otto.itc

/-- The member fields of `Channel` (itc.hpp lines 92-93): the registered
consumers, in registration order, and the optional bound producer. -/
structure ChannelData where
  consumers_ : List Nat
  producer_ : Option Nat
  deriving DecidableEq, Repr

/-- The member field of `Producer` (itc.hpp line 140): the channels this
producer is linked to, in linkage order. -/
structure ProducerData where
  channels_ : List Nat
  deriving DecidableEq, Repr

/-- The member fields of `Consumer` (itc.hpp lines 186-187): the optional
channel this consumer is registered on, and the cached state. -/
structure ConsumerData (State : Type) where
  channel_ : Option Nat
  state_ : State
  deriving DecidableEq, Repr

/-- The set of live participants: partial maps from identifiers to the data
of live channels, producers and consumers. -/
structure World (State : Type) where
  channels : Nat → Option ChannelData
  producers : Nat → Option ProducerData
  consumers : Nat → Option (ConsumerData State)

/-- Pointwise update of a partial map at one key. -/
def upd {α : Type} (f : Nat → Option α) (k : Nat) (v : Option α) : Nat → Option α :=
  fun k' => if k' = k then v else f k'

/-- The world with no live participants. -/
def World.empty (State : Type) : World State :=
  ⟨fun _ => none, fun _ => none, fun _ => none⟩

namespace Channel

/-- Embeds `Channel::Channel()` (line 40): creates a live channel with no consumers
and no producer.  Fails if the identifier is already a live channel. -/
def construct {State : Type} (w : World State) (ch : Nat) : Option (World State) :=
  match w.channels ch with
  | some _ => none
  | none => some { w with channels := upd w.channels ch (some ⟨[], none⟩) }

/-- Embeds `Channel::set_producer(Producer* p)` (lines 63-67):
`producer_ = p; if (p) p->channels_.emplace_back(this);`.
Fails if the channel is dead, or if `p` is non-null and points to a dead
producer (the code would then push onto freed memory). -/
def set_producer {State : Type} (w : World State) (ch : Nat) (p : Option Nat) :
    Option (World State) :=
  match w.channels ch with
  | none => none
  | some chd =>
    let w1 : World State := { w with channels := upd w.channels ch (some { chd with producer_ := p }) }
    match p with
    | none => some w1
    | some pid =>
      match w1.producers pid with
      | none => none
      | some pd =>
        some { w1 with
               producers := upd w1.producers pid (some ⟨pd.channels_ ++ [ch]⟩) }

/-- Embeds `Channel::internal_add_consumer(Consumer* c)` (lines 81-84):
`consumers_.push_back(c);`.  Called only from the `Consumer` constructor. -/
def internal_add_consumer {State : Type} (w : World State) (ch : Nat) (c : Nat) :
    Option (World State) :=
  match w.channels ch with
  | none => none
  | some chd =>
    some { w with
           channels := upd w.channels ch (some { chd with consumers_ := chd.consumers_ ++ [c] }) }

end Channel

namespace Consumer

/-- Embeds `Consumer::internal_produce(const State& s)` (lines 180-184):
`on_new_state(s); state_ = s;`.  The hook `on_new_state` runs while `state_`
still holds the old value, so `state()` observed inside the hook returns the
old cached state.  The result pairs the updated consumer with the observation
event `(value state() returned during the hook, incoming value)`. -/
def internal_produce {State : Type} (cd : ConsumerData State) (s : State) :
    ConsumerData State × (State × State) :=
  ({ cd with state_ := s }, (cd.state_, s))

/-- Embeds `Consumer::Consumer(Channel& ch)` (lines 147-150): sets
`channel_ = &ch` and registers itself via `ch.internal_add_consumer(this)`.
The member `State state_;` (line 187) carries no initializer and is
default-initialized; this operation idealizes the resulting contents as the
type's `default` value, which matches the source for class-type States whose
default constructor establishes a value, but over-specifies it for
trivially-default-constructible States, whose member is left indeterminate
(see `construct_uninit` below for the faithful constructor in that case).
Fails if the channel is dead or the consumer identifier is already live. -/
def construct {State : Type} [Inhabited State] (w : World State) (c : Nat) (ch : Nat) :
    Option (World State) :=
  match w.consumers c with
  | some _ => none
  | none =>
    match w.channels ch with
    | none => none
    | some _ =>
      let w1 : World State :=
        { w with consumers := upd w.consumers c (some ⟨some ch, default⟩) }
      Channel.internal_add_consumer w1 ch c

/-- Faithful embedding of `Consumer::Consumer(Channel& ch)` (lines 147-150)
for a trivially-default-constructible `State`: the member `State state_;`
(line 187) has no initializer, so default-initialization performs no
initialization at all and the member holds an indeterminate value; the
parameter `g` stands for whatever indeterminate contents the member happens
to hold.  Fails if the channel is dead or the consumer identifier is already
live. -/
def construct_uninit {State : Type} (w : World State) (c : Nat) (ch : Nat) (g : State) :
    Option (World State) :=
  match w.consumers c with
  | some _ => none
  | none =>
    match w.channels ch with
    | none => none
    | some _ =>
      let w1 : World State :=
        { w with consumers := upd w.consumers c (some ⟨some ch, g⟩) }
      Channel.internal_add_consumer w1 ch c

/-- Embeds `Consumer::~Consumer()` (lines 152-155):
`if (channel_) std::erase(channel_->consumers_, this);`, then the object dies.
Fails if the consumer is dead, or if `channel_` points to a dead channel. -/
def destruct {State : Type} (w : World State) (c : Nat) : Option (World State) :=
  match w.consumers c with
  | none => none
  | some cd =>
    match cd.channel_ with
    | none => some { w with consumers := upd w.consumers c none }
    | some ch =>
      match w.channels ch with
      | none => none
      | some chd =>
        some { w with
               channels := upd w.channels ch
                 (some { chd with consumers_ := chd.consumers_.filter (fun x => x ≠ c) }),
               consumers := upd w.consumers c none }

end Consumer

/-- The loop body of `Channel::internal_produce` (line 89): one iteration of
`cons->internal_produce(s)`, threading the world and the trace of observation
events.  Fails if the consumer is dead. -/
def deliverStep {State : Type} (s : State) (acc : World State × List (Nat × State × State))
    (c : Nat) : Option (World State × List (Nat × State × State)) :=
  match acc.1.consumers c with
  | none => none
  | some cd =>
    let r := Consumer.internal_produce cd s
    some ({ acc.1 with consumers := upd acc.1.consumers c (some r.1) },
          acc.2 ++ [(c, r.2)])

/-- The loop body of `Channel::~Channel()` (lines 44-46): one iteration of
`c->channel_ = nullptr`.  Fails if the consumer is dead. -/
def severStep {State : Type} (wa : World State) (c : Nat) : Option (World State) :=
  match wa.consumers c with
  | none => none
  | some cd =>
    some { wa with consumers := upd wa.consumers c (some { cd with channel_ := none }) }

namespace Channel

/-- Embeds `Channel::internal_produce(const State& s)` (lines 87-90):
`for (auto* cons : consumers_) cons->internal_produce(s);`.
Delivers `s` to each registered consumer in registration order, recording one
event `(consumer, state seen by the hook, incoming state)` per delivery.
Fails if the channel, or any registered consumer, is dead. -/
def internal_produce {State : Type} (w : World State) (ch : Nat) (s : State) :
    Option (World State × List (Nat × State × State)) :=
  match w.channels ch with
  | none => none
  | some chd =>
    chd.consumers_.foldlM (deliverStep s) (w, ([] : List (Nat × State × State)))

/-- Embeds `Channel::~Channel()` (lines 42-48): severs every registered consumer
(`c->channel_ = nullptr`), then
`if (producer_) producer_->internal_remove_channel(*this)`, then the object
dies.  Fails if the channel, one of its consumers, or its bound producer is
dead. -/
def destruct {State : Type} (w : World State) (ch : Nat) : Option (World State) :=
  match w.channels ch with
  | none => none
  | some chd =>
    match chd.consumers_.foldlM severStep w with
    | none => none
    | some w1 =>
      match chd.producer_ with
      | none => some { w1 with channels := upd w1.channels ch none }
      | some pid =>
        match w1.producers pid with
        | none => none
        | some pd =>
          some { w1 with
                 producers := upd w1.producers pid
                   (some ⟨pd.channels_.filter (fun x => x ≠ ch)⟩),
                 channels := upd w1.channels ch none }

end Channel

/-- The loop body of `Producer::~Producer()` (lines 106-108): one iteration of
`ch->set_producer(nullptr)`.  Fails if the channel is dead. -/
def clearStep {State : Type} (wa : World State) (ch : Nat) : Option (World State) :=
  Channel.set_producer wa ch none

/-- The loop body of `Producer::produce` (lines 120-122): one iteration of
`chan->internal_produce(s)`, threading the world and concatenating the
delivery traces. -/
def broadcastStep {State : Type} (s : State) (acc : World State × List (Nat × State × State))
    (ch : Nat) : Option (World State × List (Nat × State × State)) :=
  match Channel.internal_produce acc.1 ch s with
  | none => none
  | some r => some (r.1, acc.2 ++ r.2)

namespace Producer

/-- Embeds `Producer::Producer(Channel& ch)` (lines 99-102): creates a producer with
an empty channel list, then runs `ch.set_producer(this)`.  Fails if the
channel is dead or the producer identifier is already live. -/
def construct {State : Type} (w : World State) (p : Nat) (ch : Nat) : Option (World State) :=
  match w.producers p with
  | some _ => none
  | none =>
    match w.channels ch with
    | none => none
    | some _ =>
      let w1 : World State := { w with producers := upd w.producers p (some ⟨[]⟩) }
      Channel.set_producer w1 ch (some p)

/-- Embeds `Producer::~Producer()` (lines 104-109):
`for (auto* ch : channels_) ch->set_producer(nullptr);`, then the object dies.
Fails if the producer, or any linked channel, is dead. -/
def destruct {State : Type} (w : World State) (p : Nat) : Option (World State) :=
  match w.producers p with
  | none => none
  | some pd =>
    match pd.channels_.foldlM clearStep w with
    | none => none
    | some w1 => some { w1 with producers := upd w1.producers p none }

/-- Embeds `Producer::produce(const State& s)` (lines 118-123):
`for (auto* chan : channels_) chan->internal_produce(s);`.
Broadcasts `s` over the linked channels in linkage order, concatenating the
per-channel delivery traces.  Fails if the producer, a linked channel, or a
registered consumer is dead. -/
def produce {State : Type} (w : World State) (p : Nat) (s : State) :
    Option (World State × List (Nat × State × State)) :=
  match w.producers p with
  | none => none
  | some pd =>
    pd.channels_.foldlM (broadcastStep s) (w, ([] : List (Nat × State × State)))

end Producer

/-- The operations the surrounding application can perform on the participant
graph: the public constructors, destructors, `set_producer` and `produce`. -/
inductive Op (State : Type) where
  | newChannel (ch : Nat)
  | newProducer (p ch : Nat)
  | newConsumer (c ch : Nat)
  | setProducer (ch : Nat) (p : Option Nat)
  | delChannel (ch : Nat)
  | delProducer (p : Nat)
  | delConsumer (c : Nat)
  | produce (p : Nat) (s : State)

/-- One step of the system: run one operation on the world. -/
def step {State : Type} [Inhabited State] (w : World State) : Op State → Option (World State)
  | .newChannel ch => Channel.construct w ch
  | .newProducer p ch => Producer.construct w p ch
  | .newConsumer c ch => Consumer.construct w c ch
  | .setProducer ch p => Channel.set_producer w ch p
  | .delChannel ch => Channel.destruct w ch
  | .delProducer p => Producer.destruct w p
  | .delConsumer c => Consumer.destruct w c
  | .produce p s => (Producer.produce w p s).map Prod.fst

/-- Run a sequence of operations from a world. -/
def runFrom {State : Type} [Inhabited State] (w : World State) : List (Op State) → Option (World State)
  | [] => some w
  | op :: ops =>
    match step w op with
    | none => none
    | some w' => runFrom w' ops

/-- Run a sequence of operations from the empty world. -/
def run {State : Type} [Inhabited State] (ops : List (Op State)) : Option (World State) :=
  runFrom (World.empty State) ops

/-- A world is reachable when some operation sequence, started from the empty
world, produces it without ever hitting undefined behaviour. -/
def Reachable {State : Type} [Inhabited State] (w : World State) : Prop :=
  ∃ ops : List (Op State), run ops = some w

/-! ## The lifetime-safety invariants -/

/-- The observable no-dangling-reference property of the spec (§1, §7): every
pointer in a live producer's `channels_` refers to a live channel, every
pointer in a live channel's `consumers_` and its `producer_` field refers to a
live consumer/producer, and every live consumer's `channel_` is none or refers
to a live channel. -/
def NoDangling {State : Type} (w : World State) : Prop :=
  (∀ pid pd, w.producers pid = some pd → ∀ ch ∈ pd.channels_, (w.channels ch).isSome) ∧
  (∀ ch chd, w.channels ch = some chd →
    (∀ c ∈ chd.consumers_, (w.consumers c).isSome) ∧
    (∀ pid, chd.producer_ = some pid → (w.producers pid).isSome)) ∧
  (∀ c cd, w.consumers c = some cd → ∀ ch, cd.channel_ = some ch → (w.channels ch).isSome)

/-- Channel-to-consumer consistency: every consumer registered on a live
channel is live and its `channel_` back-pointer names exactly that channel
(spec §3: "every Consumer in `consumers` has its `channel` reference equal to
this Channel"). -/
def ChanCons {State : Type} (w : World State) : Prop :=
  ∀ ch chd, w.channels ch = some chd →
    ∀ c ∈ chd.consumers_, ∃ cd, w.consumers c = some cd ∧ cd.channel_ = some ch

/-- The full bidirectional consistency invariant of the participant graph
(spec §3 invariants on Channel, Producer and Consumer). -/
structure WF {State : Type} (w : World State) : Prop where
  prodChan : ∀ pid pd, w.producers pid = some pd →
    ∀ ch ∈ pd.channels_, ∃ chd, w.channels ch = some chd ∧ chd.producer_ = some pid
  chanProd : ∀ ch chd, w.channels ch = some chd →
    ∀ pid, chd.producer_ = some pid → ∃ pd, w.producers pid = some pd ∧ ch ∈ pd.channels_
  chanCons : ChanCons w
  consChan : ∀ c cd, w.consumers c = some cd →
    ∀ ch, cd.channel_ = some ch → ∃ chd, w.channels ch = some chd ∧ c ∈ chd.consumers_

/-- A channel that appears in no live producer's `channels_` collection.
Binding such a channel (and only such a channel) to a producer leaves no
stale producer-side self-reference behind. -/
def Unlisted {State : Type} (w : World State) (ch : Nat) : Prop :=
  ∀ pid pd, w.producers pid = some pd → ch ∉ pd.channels_

/-- The restriction under which the graph invariant is preserved: whenever a
channel is bound to a producer — through `Channel::set_producer` or through
the `Producer` constructor — the channel must not currently appear in any
live producer's `channels_` collection (otherwise that producer keeps a stale
self-reference that no destructor ever corrects). -/
def SafeGuard {State : Type} (w : World State) : Op State → Prop
  | .setProducer ch _ => Unlisted w ch
  | .newProducer _ ch => Unlisted w ch
  | _ => True

/-- Worlds reachable from the empty world by operation sequences that respect
the binding restriction `SafeGuard`. -/
inductive SafeReach {State : Type} [Inhabited State] : World State → Prop
  | empty : SafeReach (World.empty State)
  | next {w w' : World State} {op : Op State} : SafeReach w → SafeGuard w op →
      step w op = some w' → SafeReach w'

/-- Consumer `c` is severed (its `channel_` is null) and its cached state is
frozen at `st`, as long as it is live. -/
def SeveredFrozen {State : Type} (c : Nat) (st : State) (w : World State) : Prop :=
  ∀ cd, w.consumers c = some cd → cd.channel_ = none ∧ cd.state_ = st

theorem WF.noDangling {State : Type} {w : World State} (h : WF w) : NoDangling w := by
  refine ⟨?_, ?_, ?_⟩
  · intro pid pd hp ch hch
    obtain ⟨chd, hchd, -⟩ := h.prodChan pid pd hp ch hch
    simp [hchd]
  · intro ch chd hch
    constructor
    · intro c hc
      obtain ⟨cd, hcd, -⟩ := h.chanCons ch chd hch c hc
      simp [hcd]
    · intro pid hpid
      obtain ⟨pd, hpd, -⟩ := h.chanProd ch chd hch pid hpid
      simp [hpd]
  · intro c cd hc ch hch
    obtain ⟨chd, hchd, -⟩ := h.consChan c cd hc ch hch
    simp [hchd]

/-! ## Pointwise update lemmas -/

theorem upd_apply {α : Type} (f : Nat → Option α) (k : Nat) (v : Option α) (k' : Nat) :
    upd f k v k' = if k' = k then v else f k' := rfl

theorem upd_self {α : Type} (f : Nat → Option α) (k : Nat) (v : Option α) :
    upd f k v k = v := by
  simp [upd]

theorem upd_ne {α : Type} (f : Nat → Option α) (k : Nat) (v : Option α) {k' : Nat}
    (h : k' ≠ k) : upd f k v k' = f k' := by
  simp [upd, h]

/-! ## Behaviour of the individual operations -/

theorem construct_channel_spec {State : Type} {w w' : World State} {ch : Nat}
    (h : Channel.construct w ch = some w') :
    w.channels ch = none ∧
    w'.channels = upd w.channels ch (some ⟨[], none⟩) ∧
    w'.producers = w.producers ∧ w'.consumers = w.consumers := by
  cases hch : w.channels ch with
  | some chd => simp [Channel.construct, hch] at h
  | none =>
    simp only [Channel.construct, hch] at h
    cases h
    exact ⟨rfl, rfl, rfl, rfl⟩

theorem set_producer_none_spec {State : Type} {w w' : World State} {ch : Nat}
    (h : Channel.set_producer w ch none = some w') :
    ∃ chd, w.channels ch = some chd ∧
      w'.channels = upd w.channels ch (some ⟨chd.consumers_, none⟩) ∧
      w'.producers = w.producers ∧ w'.consumers = w.consumers := by
  cases hch : w.channels ch with
  | none => simp [Channel.set_producer, hch] at h
  | some chd =>
    simp only [Channel.set_producer, hch] at h
    cases h
    exact ⟨chd, rfl, rfl, rfl, rfl⟩

theorem set_producer_some_spec {State : Type} {w w' : World State} {ch pid : Nat}
    (h : Channel.set_producer w ch (some pid) = some w') :
    ∃ chd pd, w.channels ch = some chd ∧ w.producers pid = some pd ∧
      w'.channels = upd w.channels ch (some ⟨chd.consumers_, some pid⟩) ∧
      w'.producers = upd w.producers pid (some ⟨pd.channels_ ++ [ch]⟩) ∧
      w'.consumers = w.consumers := by
  cases hch : w.channels ch with
  | none => simp [Channel.set_producer, hch] at h
  | some chd =>
    cases hp : w.producers pid with
    | none => simp [Channel.set_producer, hch, hp] at h
    | some pd =>
      simp only [Channel.set_producer, hch, hp] at h
      cases h
      exact ⟨chd, pd, rfl, rfl, rfl, rfl, rfl⟩

theorem construct_producer_spec {State : Type} {w w' : World State} {p ch : Nat}
    (h : Producer.construct w p ch = some w') :
    w.producers p = none ∧
    ∃ chd, w.channels ch = some chd ∧
      w'.channels = upd w.channels ch (some ⟨chd.consumers_, some p⟩) ∧
      w'.producers = upd w.producers p (some ⟨[ch]⟩) ∧
      w'.consumers = w.consumers := by
  cases hp : w.producers p with
  | some pd => simp [Producer.construct, hp] at h
  | none =>
    cases hch : w.channels ch with
    | none => simp [Producer.construct, hp, hch] at h
    | some chd =>
      simp only [Producer.construct, hp, hch] at h
      obtain ⟨chd', pd', hch', hp', hc', hpr', hco'⟩ := set_producer_some_spec h
      refine ⟨rfl, chd, rfl, ?_, ?_, ?_⟩
      · rw [hc']
        simp only at hch'
        rw [hch] at hch'
        cases hch'
        rfl
      · rw [hpr']
        simp only [upd_self] at hp'
        cases hp'
        funext k
        by_cases hk : k = p <;> simp [upd, hk]
      · rw [hco']

theorem construct_consumer_spec {State : Type} [Inhabited State] {w w' : World State}
    {c ch : Nat} (h : Consumer.construct w c ch = some w') :
    w.consumers c = none ∧
    ∃ chd, w.channels ch = some chd ∧
      w'.channels = upd w.channels ch (some ⟨chd.consumers_ ++ [c], chd.producer_⟩) ∧
      w'.producers = w.producers ∧
      w'.consumers = upd w.consumers c (some ⟨some ch, default⟩) := by
  cases hc : w.consumers c with
  | some cd => simp [Consumer.construct, hc] at h
  | none =>
    cases hch : w.channels ch with
    | none => simp [Consumer.construct, hc, hch] at h
    | some chd =>
      simp only [Consumer.construct, hc, hch, Channel.internal_add_consumer] at h
      cases h
      exact ⟨rfl, chd, rfl, rfl, rfl, rfl⟩

theorem destruct_consumer_spec {State : Type} {w w' : World State} {c : Nat}
    (h : Consumer.destruct w c = some w') :
    ∃ cd, w.consumers c = some cd ∧
      w'.consumers = upd w.consumers c none ∧
      w'.producers = w.producers ∧
      ((cd.channel_ = none ∧ w'.channels = w.channels) ∨
       (∃ ch chd, cd.channel_ = some ch ∧ w.channels ch = some chd ∧
         w'.channels = upd w.channels ch
           (some ⟨chd.consumers_.filter (fun x => x ≠ c), chd.producer_⟩))) := by
  cases hc : w.consumers c with
  | none => simp [Consumer.destruct, hc] at h
  | some cd =>
    cases hcc : cd.channel_ with
    | none =>
      simp only [Consumer.destruct, hc, hcc] at h
      cases h
      exact ⟨cd, rfl, rfl, rfl, Or.inl ⟨hcc, rfl⟩⟩
    | some ch =>
      cases hch : w.channels ch with
      | none => simp [Consumer.destruct, hc, hcc, hch] at h
      | some chd =>
        simp only [Consumer.destruct, hc, hcc, hch] at h
        cases h
        exact ⟨cd, rfl, rfl, rfl, Or.inr ⟨ch, chd, hcc, hch, rfl⟩⟩

/-! ## The sever loop of the Channel destructor -/

theorem severStep_spec {State : Type} {w w' : World State} {c : Nat}
    (h : severStep w c = some w') :
    ∃ cd, w.consumers c = some cd ∧
      w'.channels = w.channels ∧ w'.producers = w.producers ∧
      w'.consumers = upd w.consumers c (some ⟨none, cd.state_⟩) := by
  cases hc : w.consumers c with
  | none => simp [severStep, hc] at h
  | some cd =>
    simp only [severStep, hc] at h
    cases h
    exact ⟨cd, rfl, rfl, rfl, rfl⟩

theorem sever_fold_spec {State : Type} (L : List Nat) :
    ∀ {w w' : World State}, L.foldlM severStep w = some w' →
      w'.channels = w.channels ∧ w'.producers = w.producers ∧
      (∀ c, c ∉ L → w'.consumers c = w.consumers c) ∧
      (∀ c ∈ L, ∃ cd, w.consumers c = some cd ∧ w'.consumers c = some ⟨none, cd.state_⟩) := by
  induction L with
  | nil =>
    intro w w' h
    simp only [List.foldlM_nil] at h
    cases h
    exact ⟨rfl, rfl, fun c _ => rfl, fun c hc => absurd hc (List.not_mem_nil c)⟩
  | cons a L ih =>
    intro w w' h
    simp only [List.foldlM_cons] at h
    cases ha : severStep w a with
    | none =>
      rw [ha] at h
      exact Option.noConfusion h
    | some w1 =>
      rw [ha] at h
      obtain ⟨cda, hcda, hch1, hpr1, hco1⟩ := severStep_spec ha
      obtain ⟨hch2, hpr2, hout, hin⟩ := ih h
      refine ⟨hch2.trans hch1, hpr2.trans hpr1, ?_, ?_⟩
      · intro c hc
        rw [hout c (fun hm => hc (List.mem_cons_of_mem a hm)), hco1,
          upd_ne _ _ _ (fun hca => hc (by rw [hca]; exact List.mem_cons_self a L))]
      · intro c hc
        rcases List.mem_cons.mp hc with rfl | hm
        · by_cases hmem : c ∈ L
          · obtain ⟨cd1, hcd1, hcd1'⟩ := hin c hmem
            rw [hco1, upd_self] at hcd1
            cases hcd1
            exact ⟨cda, hcda, hcd1'⟩
          · refine ⟨cda, hcda, ?_⟩
            rw [hout c hmem, hco1, upd_self]
        · obtain ⟨cd1, hcd1, hcd1'⟩ := hin c hm
          by_cases hca : c = a
          · subst hca
            rw [hco1, upd_self] at hcd1
            cases hcd1
            exact ⟨cda, hcda, hcd1'⟩
          · rw [hco1, upd_ne _ _ _ hca] at hcd1
            exact ⟨cd1, hcd1, hcd1'⟩

theorem destruct_channel_spec {State : Type} {w w' : World State} {ch : Nat}
    (h : Channel.destruct w ch = some w') :
    ∃ chd, w.channels ch = some chd ∧
      w'.channels = upd w.channels ch none ∧
      (∀ c, c ∉ chd.consumers_ → w'.consumers c = w.consumers c) ∧
      (∀ c ∈ chd.consumers_, ∃ cd, w.consumers c = some cd ∧
        w'.consumers c = some ⟨none, cd.state_⟩) ∧
      ((chd.producer_ = none ∧ w'.producers = w.producers) ∨
       (∃ pid pd, chd.producer_ = some pid ∧ w.producers pid = some pd ∧
         w'.producers = upd w.producers pid
           (some ⟨pd.channels_.filter (fun x => x ≠ ch)⟩))) := by
  cases hch : w.channels ch with
  | none => simp [Channel.destruct, hch] at h
  | some chd =>
    simp only [Channel.destruct, hch] at h
    cases hf : chd.consumers_.foldlM severStep w with
    | none => rw [hf] at h; simp at h
    | some w1 =>
      rw [hf] at h
      obtain ⟨hch1, hpr1, hout, hin⟩ := sever_fold_spec chd.consumers_ hf
      cases hpc : chd.producer_ with
      | none =>
        simp only [hpc] at h
        cases h
        refine ⟨chd, rfl, ?_, ?_, ?_, Or.inl ⟨hpc, hpr1⟩⟩
        · rw [hch1]
        · exact hout
        · exact hin
      | some pid =>
        simp only [hpc] at h
        cases hp : w1.producers pid with
        | none => rw [hp] at h; simp at h
        | some pd =>
          rw [hp] at h
          simp only at h
          cases h
          rw [hpr1] at hp
          refine ⟨chd, rfl, ?_, ?_, ?_, Or.inr ⟨pid, pd, hpc, hp, ?_⟩⟩
          · rw [hch1]
          · exact hout
          · exact hin
          · rw [hpr1]

/-! ## The clear loop of the Producer destructor -/

theorem clear_fold_spec {State : Type} (L : List Nat) :
    ∀ {w w' : World State}, L.foldlM clearStep w = some w' →
      w'.producers = w.producers ∧ w'.consumers = w.consumers ∧
      (∀ ch, ch ∉ L → w'.channels ch = w.channels ch) ∧
      (∀ ch ∈ L, ∃ chd, w.channels ch = some chd ∧
        w'.channels ch = some ⟨chd.consumers_, none⟩) := by
  induction L with
  | nil =>
    intro w w' h
    simp only [List.foldlM_nil] at h
    cases h
    exact ⟨rfl, rfl, fun ch _ => rfl, fun ch hc => absurd hc (List.not_mem_nil ch)⟩
  | cons a L ih =>
    intro w w' h
    simp only [List.foldlM_cons] at h
    cases ha : clearStep w a with
    | none =>
      rw [ha] at h
      exact Option.noConfusion h
    | some w1 =>
      rw [ha] at h
      obtain ⟨chda, hchda, hcha, hpra, hcoa⟩ := set_producer_none_spec ha
      obtain ⟨hpr2, hco2, hout, hin⟩ := ih h
      refine ⟨hpr2.trans hpra, hco2.trans hcoa, ?_, ?_⟩
      · intro ch hc
        rw [hout ch (fun hm => hc (List.mem_cons_of_mem a hm)), hcha,
          upd_ne _ _ _ (fun hca => hc (by rw [hca]; exact List.mem_cons_self a L))]
      · intro ch hc
        rcases List.mem_cons.mp hc with rfl | hm
        · by_cases hmem : ch ∈ L
          · obtain ⟨chd1, hchd1, hchd1'⟩ := hin ch hmem
            rw [hcha, upd_self] at hchd1
            cases hchd1
            exact ⟨chda, hchda, hchd1'⟩
          · refine ⟨chda, hchda, ?_⟩
            rw [hout ch hmem, hcha, upd_self]
        · obtain ⟨chd1, hchd1, hchd1'⟩ := hin ch hm
          by_cases hca : ch = a
          · subst hca
            rw [hcha, upd_self] at hchd1
            cases hchd1
            exact ⟨chda, hchda, hchd1'⟩
          · rw [hcha, upd_ne _ _ _ hca] at hchd1
            exact ⟨chd1, hchd1, hchd1'⟩

theorem destruct_producer_spec {State : Type} {w w' : World State} {p : Nat}
    (h : Producer.destruct w p = some w') :
    ∃ pd, w.producers p = some pd ∧
      w'.producers = upd w.producers p none ∧
      w'.consumers = w.consumers ∧
      (∀ ch, ch ∉ pd.channels_ → w'.channels ch = w.channels ch) ∧
      (∀ ch ∈ pd.channels_, ∃ chd, w.channels ch = some chd ∧
        w'.channels ch = some ⟨chd.consumers_, none⟩) := by
  cases hp : w.producers p with
  | none => simp [Producer.destruct, hp] at h
  | some pd =>
    simp only [Producer.destruct, hp] at h
    cases hf : pd.channels_.foldlM clearStep w with
    | none => rw [hf] at h; exact Option.noConfusion h
    | some w1 =>
      rw [hf] at h
      simp only at h
      cases h
      obtain ⟨hpr1, hco1, hout, hin⟩ := clear_fold_spec pd.channels_ hf
      exact ⟨pd, rfl, by rw [hpr1], hco1, hout, hin⟩

/-! ## The delivery loop of Channel::internal_produce -/

theorem deliverStep_spec {State : Type} {s : State} {acc acc' : World State × List (Nat × State × State)}
    {c : Nat} (h : deliverStep s acc c = some acc') :
    ∃ cd, acc.1.consumers c = some cd ∧
      acc'.1.channels = acc.1.channels ∧ acc'.1.producers = acc.1.producers ∧
      acc'.1.consumers = upd acc.1.consumers c (some ⟨cd.channel_, s⟩) ∧
      acc'.2 = acc.2 ++ [(c, cd.state_, s)] := by
  cases hc : acc.1.consumers c with
  | none => simp [deliverStep, hc] at h
  | some cd =>
    simp only [deliverStep, hc, Consumer.internal_produce] at h
    cases h
    exact ⟨cd, rfl, rfl, rfl, rfl, rfl⟩

theorem deliver_fold_spec {State : Type} (s : State) (L : List Nat) :
    ∀ {w w' : World State} {tr0 tr : List (Nat × State × State)},
      L.foldlM (deliverStep s) (w, tr0) = some (w', tr) →
      w'.channels = w.channels ∧ w'.producers = w.producers ∧
      (∀ c, c ∉ L → w'.consumers c = w.consumers c) ∧
      (∀ c ∈ L, ∃ cd, w.consumers c = some cd ∧ w'.consumers c = some ⟨cd.channel_, s⟩) ∧
      (∃ trN, tr = tr0 ++ trN ∧ trN.map Prod.fst = L ∧ ∀ e ∈ trN, e.2.2 = s) := by
  induction L with
  | nil =>
    intro w w' tr0 tr h
    simp only [List.foldlM_nil] at h
    cases h
    refine ⟨rfl, rfl, fun c _ => rfl, fun c hc => absurd hc (List.not_mem_nil c), [], ?_, rfl, ?_⟩
    · simp
    · intro e he
      exact absurd he (List.not_mem_nil e)
  | cons a L ih =>
    intro w w' tr0 tr h
    simp only [List.foldlM_cons] at h
    cases ha : deliverStep s (w, tr0) a with
    | none =>
      rw [ha] at h
      exact Option.noConfusion h
    | some acc1 =>
      rw [ha] at h
      obtain ⟨cda, hcda, hcha, hpra, hcoa, htra⟩ := deliverStep_spec ha
      obtain ⟨hch2, hpr2, hout, hin, trN, htr, htrm, htrs⟩ :=
        ih (show L.foldlM (deliverStep s) (acc1.1, acc1.2) = some (w', tr) by
          rw [Prod.mk.eta]; exact h)
      refine ⟨hch2.trans hcha, hpr2.trans hpra, ?_, ?_, ?_⟩
      · intro c hc
        rw [hout c (fun hm => hc (List.mem_cons_of_mem a hm)), hcoa,
          upd_ne _ _ _ (fun hca => hc (by rw [hca]; exact List.mem_cons_self a L))]
      · intro c hc
        rcases List.mem_cons.mp hc with rfl | hm
        · by_cases hmem : c ∈ L
          · obtain ⟨cd1, hcd1, hcd1'⟩ := hin c hmem
            rw [hcoa, upd_self] at hcd1
            cases hcd1
            exact ⟨cda, hcda, hcd1'⟩
          · refine ⟨cda, hcda, ?_⟩
            rw [hout c hmem, hcoa, upd_self]
        · obtain ⟨cd1, hcd1, hcd1'⟩ := hin c hm
          by_cases hca : c = a
          · subst hca
            rw [hcoa, upd_self] at hcd1
            cases hcd1
            exact ⟨cda, hcda, hcd1'⟩
          · rw [hcoa, upd_ne _ _ _ hca] at hcd1
            exact ⟨cd1, hcd1, hcd1'⟩
      · refine ⟨(a, cda.state_, s) :: trN, ?_, ?_, ?_⟩
        · rw [htr, htra]
          simp
        · simp [htrm]
        · intro e he
          rcases List.mem_cons.mp he with rfl | hm
          · rfl
          · exact htrs e hm

theorem internal_produce_spec {State : Type} {w w' : World State} {ch : Nat} {s : State}
    {tr : List (Nat × State × State)} (h : Channel.internal_produce w ch s = some (w', tr)) :
    ∃ chd, w.channels ch = some chd ∧
      w'.channels = w.channels ∧ w'.producers = w.producers ∧
      (∀ c, c ∉ chd.consumers_ → w'.consumers c = w.consumers c) ∧
      (∀ c ∈ chd.consumers_, ∃ cd, w.consumers c = some cd ∧
        w'.consumers c = some ⟨cd.channel_, s⟩) ∧
      tr.map Prod.fst = chd.consumers_ ∧ (∀ e ∈ tr, e.2.2 = s) := by
  cases hch : w.channels ch with
  | none => simp [Channel.internal_produce, hch] at h
  | some chd =>
    simp only [Channel.internal_produce, hch] at h
    obtain ⟨hch', hpr', hout, hin, trN, htr, htrm, htrs⟩ := deliver_fold_spec s chd.consumers_ h
    rw [List.nil_append] at htr
    subst htr
    exact ⟨chd, rfl, hch', hpr', hout, hin, htrm, htrs⟩

/-! ## The broadcast loop of Producer::produce -/

theorem broadcast_fold_spec {State : Type} (s : State) (L : List Nat) :
    ∀ {w w' : World State} {tr0 tr : List (Nat × State × State)},
      L.foldlM (broadcastStep s) (w, tr0) = some (w', tr) →
      w'.channels = w.channels ∧ w'.producers = w.producers ∧
      (∀ c, (∀ ch ∈ L, ∀ chd, w.channels ch = some chd → c ∉ chd.consumers_) →
        w'.consumers c = w.consumers c) ∧
      (∀ c, w'.consumers c = w.consumers c ∨
        ∃ cd, w.consumers c = some cd ∧ w'.consumers c = some ⟨cd.channel_, s⟩) ∧
      (∃ trN, tr = tr0 ++ trN ∧
        trN.map Prod.fst =
          L.flatMap (fun ch => ((w.channels ch).map ChannelData.consumers_).getD []) ∧
        ∀ e ∈ trN, e.2.2 = s) := by
  induction L with
  | nil =>
    intro w w' tr0 tr h
    simp only [List.foldlM_nil] at h
    cases h
    refine ⟨rfl, rfl, fun c _ => rfl, fun c => Or.inl rfl, [], by simp, by simp, ?_⟩
    intro e he
    exact absurd he (List.not_mem_nil e)
  | cons a L ih =>
    intro w w' tr0 tr h
    simp only [List.foldlM_cons] at h
    cases ha : broadcastStep s (w, tr0) a with
    | none =>
      rw [ha] at h
      exact Option.noConfusion h
    | some acc1 =>
      rw [ha] at h
      have ha' : Channel.internal_produce w a s = some (acc1.1, acc1.2.drop tr0.length) ∧
          acc1.2 = tr0 ++ acc1.2.drop tr0.length := by
        revert ha
        simp only [broadcastStep]
        cases hip : Channel.internal_produce w a s with
        | none => intro hcon; exact Option.noConfusion hcon
        | some r =>
          intro hcon
          cases hcon
          simp
      obtain ⟨hip, htr1⟩ := ha'
      obtain ⟨chda, hchda, hcha, hpra, houta, hina, htrma, htrsa⟩ := internal_produce_spec hip
      obtain ⟨hch2, hpr2, hout, hdisj, trN, htr, htrm, htrs⟩ :=
        ih (show L.foldlM (broadcastStep s) (acc1.1, acc1.2) = some (w', tr) by
          rw [Prod.mk.eta]; exact h)
      refine ⟨hch2.trans hcha, hpr2.trans hpra, ?_, ?_, ?_⟩
      · intro c hc
        have h1 : acc1.1.consumers c = w.consumers c :=
          houta c (hc a (List.mem_cons_self a L) chda hchda)
        have h2 : w'.consumers c = acc1.1.consumers c := by
          refine hout c ?_
          intro ch hm chd hchd
          exact hc ch (List.mem_cons_of_mem a hm) chd (by rw [← hcha, hchd])
        rw [h2, h1]
      · intro c
        rcases hdisj c with h2 | ⟨cd1, hcd1, hcd1'⟩
        · by_cases hmem : c ∈ chda.consumers_
          · obtain ⟨cd, hcd, hcd'⟩ := hina c hmem
            exact Or.inr ⟨cd, hcd, by rw [h2, hcd']⟩
          · exact Or.inl (by rw [h2, houta c hmem])
        · by_cases hmem : c ∈ chda.consumers_
          · obtain ⟨cd, hcd, hcd'⟩ := hina c hmem
            rw [hcd'] at hcd1
            cases hcd1
            exact Or.inr ⟨cd, hcd, hcd1'⟩
          · rw [houta c hmem] at hcd1
            exact Or.inr ⟨cd1, hcd1, hcd1'⟩
      · refine ⟨acc1.2.drop tr0.length ++ trN, ?_, ?_, ?_⟩
        · rw [htr]
          conv_lhs => rw [htr1]
          rw [List.append_assoc]
        · rw [List.map_append, htrma, List.flatMap_cons, hchda]
          simp only [Option.map_some', Option.getD_some]
          congr 1
          rw [htrm]
          congr 1
          funext ch
          rw [hcha]
        · intro e he
          rcases List.mem_append.mp he with hm | hm
          · exact htrsa e hm
          · exact htrs e hm

theorem produce_spec {State : Type} {w w' : World State} {p : Nat} {s : State}
    {tr : List (Nat × State × State)} (h : Producer.produce w p s = some (w', tr)) :
    ∃ pd, w.producers p = some pd ∧
      w'.channels = w.channels ∧ w'.producers = w.producers ∧
      (∀ c, (∀ ch ∈ pd.channels_, ∀ chd, w.channels ch = some chd → c ∉ chd.consumers_) →
        w'.consumers c = w.consumers c) ∧
      (∀ c, w'.consumers c = w.consumers c ∨
        ∃ cd, w.consumers c = some cd ∧ w'.consumers c = some ⟨cd.channel_, s⟩) ∧
      tr.map Prod.fst =
        pd.channels_.flatMap (fun ch => ((w.channels ch).map ChannelData.consumers_).getD []) ∧
      (∀ e ∈ tr, e.2.2 = s) := by
  cases hp : w.producers p with
  | none => simp [Producer.produce, hp] at h
  | some pd =>
    simp only [Producer.produce, hp] at h
    obtain ⟨hch', hpr', hout, hdisj, trN, htr, htrm, htrs⟩ := broadcast_fold_spec s pd.channels_ h
    rw [List.nil_append] at htr
    subst htr
    exact ⟨pd, rfl, hch', hpr', hout, hdisj, htrm, htrs⟩

theorem broadcast_fold_delivers {State : Type} (s : State) (L : List Nat) :
    ∀ {w w' : World State} {tr0 tr : List (Nat × State × State)},
      L.foldlM (broadcastStep s) (w, tr0) = some (w', tr) →
      ∀ ch ∈ L, ∀ chd, w.channels ch = some chd → ∀ c ∈ chd.consumers_,
        ∃ cd', w'.consumers c = some cd' ∧ cd'.state_ = s := by
  induction L with
  | nil =>
    intro w w' tr0 tr _ ch hch
    exact absurd hch (List.not_mem_nil ch)
  | cons a L ih =>
    intro w w' tr0 tr h ch hch chd hchd c hc
    simp only [List.foldlM_cons] at h
    cases ha : broadcastStep s (w, tr0) a with
    | none =>
      rw [ha] at h
      exact Option.noConfusion h
    | some acc1 =>
      rw [ha] at h
      have h' : L.foldlM (broadcastStep s) (acc1.1, acc1.2) = some (w', tr) := by
        rw [Prod.mk.eta]; exact h
      have hip : Channel.internal_produce w a s = some (acc1.1, acc1.2.drop tr0.length) := by
        revert ha
        simp only [broadcastStep]
        cases hip : Channel.internal_produce w a s with
        | none => intro hcon; exact Option.noConfusion hcon
        | some r =>
          intro hcon
          cases hcon
          simp
      obtain ⟨chda, hchda, hcha, hpra, houta, hina, -, -⟩ := internal_produce_spec hip
      rcases List.mem_cons.mp hch with rfl | hm
      · rw [hchda] at hchd
        cases hchd
        obtain ⟨cd, -, hcd'⟩ := hina c hc
        obtain ⟨-, -, -, hdisj, -⟩ := broadcast_fold_spec s L h'
        rcases hdisj c with h2 | ⟨cd1, hcd1, hcd1'⟩
        · exact ⟨⟨cd.channel_, s⟩, by rw [h2, hcd'], rfl⟩
        · exact ⟨⟨cd1.channel_, s⟩, hcd1', rfl⟩
      · exact ih h' ch hm chd (by rw [hcha, hchd]) c hc

theorem produce_delivers {State : Type} {w w' : World State} {p : Nat} {s : State}
    {tr : List (Nat × State × State)} {pd : ProducerData}
    (h : Producer.produce w p s = some (w', tr)) (hp : w.producers p = some pd) :
    ∀ ch ∈ pd.channels_, ∀ chd, w.channels ch = some chd → ∀ c ∈ chd.consumers_,
      ∃ cd', w'.consumers c = some cd' ∧ cd'.state_ = s := by
  simp only [Producer.produce, hp] at h
  exact broadcast_fold_delivers s pd.channels_ h

/-! ## Success conditions: the operations do not fail when everything is live -/

theorem deliver_fold_isSome {State : Type} (s : State) (L : List Nat) :
    ∀ {w : World State} {tr0 : List (Nat × State × State)},
      (∀ c ∈ L, (w.consumers c).isSome) →
      (L.foldlM (deliverStep s) (w, tr0)).isSome := by
  induction L with
  | nil =>
    intro w tr0 _
    simp [List.foldlM_nil]
  | cons a L ih =>
    intro w tr0 hlive
    have ha : (w.consumers a).isSome := hlive a (List.mem_cons_self a L)
    cases hc : w.consumers a with
    | none => rw [hc] at ha; exact absurd ha (by simp)
    | some cd =>
      simp only [List.foldlM_cons, deliverStep, hc]
      refine ih ?_
      intro c hcm
      by_cases hca : c = a
      · subst hca
        simp [upd_self]
      · simp only [upd_ne _ _ _ hca]
        exact hlive c (List.mem_cons_of_mem a hcm)

theorem internal_produce_isSome {State : Type} {w : World State} {ch : Nat} {s : State}
    {chd : ChannelData} (hch : w.channels ch = some chd)
    (hlive : ∀ c ∈ chd.consumers_, (w.consumers c).isSome) :
    (Channel.internal_produce w ch s).isSome := by
  simp only [Channel.internal_produce, hch]
  exact deliver_fold_isSome s chd.consumers_ hlive

theorem broadcast_fold_isSome {State : Type} (s : State) (L : List Nat) :
    ∀ {w : World State} {tr0 : List (Nat × State × State)},
      (∀ ch ∈ L, ∃ chd, w.channels ch = some chd ∧
        ∀ c ∈ chd.consumers_, (w.consumers c).isSome) →
      (L.foldlM (broadcastStep s) (w, tr0)).isSome := by
  induction L with
  | nil =>
    intro w tr0 _
    simp [List.foldlM_nil]
  | cons a L ih =>
    intro w tr0 hlive
    obtain ⟨chda, hchda, hliva⟩ := hlive a (List.mem_cons_self a L)
    have hip : (Channel.internal_produce w a s).isSome := internal_produce_isSome hchda hliva
    cases hipc : Channel.internal_produce w a s with
    | none => rw [hipc] at hip; exact absurd hip (by simp)
    | some r =>
      simp only [List.foldlM_cons, broadcastStep, hipc]
      obtain ⟨chda', hchda', hcha, hpra, houta, hina, -, -⟩ := internal_produce_spec hipc
      refine ih ?_
      intro ch hm
      obtain ⟨chd, hchd, hliv⟩ := hlive ch (List.mem_cons_of_mem a hm)
      refine ⟨chd, by rw [hcha]; exact hchd, ?_⟩
      intro c hc
      by_cases hcm : c ∈ chda'.consumers_
      · obtain ⟨cd, -, hcd'⟩ := hina c hcm
        simp [hcd']
      · rw [houta c hcm]
        exact hliv c hc

theorem produce_isSome {State : Type} {w : World State} {p : Nat} {s : State}
    {pd : ProducerData} (hp : w.producers p = some pd)
    (hlive : ∀ ch ∈ pd.channels_, ∃ chd, w.channels ch = some chd ∧
      ∀ c ∈ chd.consumers_, (w.consumers c).isSome) :
    (Producer.produce w p s).isSome := by
  simp only [Producer.produce, hp]
  exact broadcast_fold_isSome s pd.channels_ hlive

/-! ## Preservation of the graph invariant -/


theorem WF_construct_channel {State : Type} {w w' : World State} {ch : Nat}
    (hw : WF w) (h : Channel.construct w ch = some w') : WF w' := by
  obtain ⟨hchn, hc, hp, hco⟩ := construct_channel_spec h
  constructor
  · intro pid pd hpd ch' hch'
    rw [hp] at hpd
    obtain ⟨chd, hchd, hb⟩ := hw.prodChan pid pd hpd ch' hch'
    have hne : ch' ≠ ch := fun he => by rw [he, hchn] at hchd; exact Option.noConfusion hchd
    exact ⟨chd, by rw [hc, upd_ne _ _ _ hne]; exact hchd, hb⟩
  · intro ch' chd' hch' pid hpid
    rw [hc] at hch'
    by_cases hne : ch' = ch
    · subst hne
      rw [upd_self] at hch'
      cases hch'
      exact Option.noConfusion hpid
    · rw [upd_ne _ _ _ hne] at hch'
      obtain ⟨pd, hpd, hm⟩ := hw.chanProd ch' chd' hch' pid hpid
      exact ⟨pd, by rw [hp]; exact hpd, hm⟩
  · intro ch' chd' hch' c hcm
    rw [hc] at hch'
    by_cases hne : ch' = ch
    · subst hne
      rw [upd_self] at hch'
      cases hch'
      exact absurd hcm (List.not_mem_nil c)
    · rw [upd_ne _ _ _ hne] at hch'
      obtain ⟨cd, hcd, hb⟩ := hw.chanCons ch' chd' hch' c hcm
      exact ⟨cd, by rw [hco]; exact hcd, hb⟩
  · intro c cd hcd ch' hch'
    rw [hco] at hcd
    obtain ⟨chd, hchd, hm⟩ := hw.consChan c cd hcd ch' hch'
    have hne : ch' ≠ ch := fun he => by rw [he, hchn] at hchd; exact Option.noConfusion hchd
    exact ⟨chd, by rw [hc, upd_ne _ _ _ hne]; exact hchd, hm⟩

theorem WF_set_producer_none {State : Type} {w w' : World State} {ch : Nat}
    (hw : WF w) (hun : Unlisted w ch) (h : Channel.set_producer w ch none = some w') :
    WF w' := by
  obtain ⟨chd, hchd, hc, hp, hco⟩ := set_producer_none_spec h
  constructor
  · intro pid pd hpd ch' hch'
    rw [hp] at hpd
    obtain ⟨chd', hchd', hb⟩ := hw.prodChan pid pd hpd ch' hch'
    have hne : ch' ≠ ch := fun he => hun pid pd hpd (he ▸ hch')
    exact ⟨chd', by rw [hc, upd_ne _ _ _ hne]; exact hchd', hb⟩
  · intro ch' chd' hch' pid hpid
    rw [hc] at hch'
    by_cases hne : ch' = ch
    · subst hne
      rw [upd_self] at hch'
      cases hch'
      exact Option.noConfusion hpid
    · rw [upd_ne _ _ _ hne] at hch'
      obtain ⟨pd, hpd, hm⟩ := hw.chanProd ch' chd' hch' pid hpid
      exact ⟨pd, by rw [hp]; exact hpd, hm⟩
  · intro ch' chd' hch' c hcm
    rw [hc] at hch'
    by_cases hne : ch' = ch
    · subst hne
      rw [upd_self] at hch'
      cases hch'
      obtain ⟨cd, hcd, hb⟩ := hw.chanCons ch' chd hchd c hcm
      exact ⟨cd, by rw [hco]; exact hcd, hb⟩
    · rw [upd_ne _ _ _ hne] at hch'
      obtain ⟨cd, hcd, hb⟩ := hw.chanCons ch' chd' hch' c hcm
      exact ⟨cd, by rw [hco]; exact hcd, hb⟩
  · intro c cd hcd ch' hch'
    rw [hco] at hcd
    obtain ⟨chd'', hchd'', hm⟩ := hw.consChan c cd hcd ch' hch'
    by_cases hne : ch' = ch
    · subst hne
      rw [hchd] at hchd''
      cases hchd''
      exact ⟨⟨chd.consumers_, none⟩, by rw [hc, upd_self], hm⟩
    · exact ⟨chd'', by rw [hc, upd_ne _ _ _ hne]; exact hchd'', hm⟩

theorem WF_set_producer_some {State : Type} {w w' : World State} {ch pid : Nat}
    (hw : WF w) (hun : Unlisted w ch) (h : Channel.set_producer w ch (some pid) = some w') :
    WF w' := by
  obtain ⟨chd, pd, hchd, hpd, hc, hp, hco⟩ := set_producer_some_spec h
  constructor
  · intro pid' pd' hpd' ch' hch'
    rw [hp] at hpd'
    by_cases hpe : pid' = pid
    · subst hpe
      rw [upd_self] at hpd'
      cases hpd'
      rcases List.mem_append.mp hch' with hm | hm
      · obtain ⟨chd', hchd', hb⟩ := hw.prodChan pid' pd hpd ch' hm
        have hne : ch' ≠ ch := fun he => hun pid' pd hpd (he ▸ hm)
        exact ⟨chd', by rw [hc, upd_ne _ _ _ hne]; exact hchd', hb⟩
      · rw [List.mem_singleton] at hm
        subst hm
        exact ⟨⟨chd.consumers_, some pid'⟩, by rw [hc, upd_self], rfl⟩
    · rw [upd_ne _ _ _ hpe] at hpd'
      obtain ⟨chd', hchd', hb⟩ := hw.prodChan pid' pd' hpd' ch' hch'
      have hne : ch' ≠ ch := fun he => hun pid' pd' hpd' (he ▸ hch')
      exact ⟨chd', by rw [hc, upd_ne _ _ _ hne]; exact hchd', hb⟩
  · intro ch' chd' hch' pid' hpid'
    rw [hc] at hch'
    by_cases hne : ch' = ch
    · subst hne
      rw [upd_self] at hch'
      cases hch'
      cases hpid'
      refine ⟨⟨pd.channels_ ++ [ch']⟩, by rw [hp, upd_self], ?_⟩
      exact List.mem_append.mpr (Or.inr (List.mem_singleton.mpr rfl))
    · rw [upd_ne _ _ _ hne] at hch'
      obtain ⟨pd', hpd', hm⟩ := hw.chanProd ch' chd' hch' pid' hpid'
      by_cases hpe : pid' = pid
      · subst hpe
        rw [hpd] at hpd'
        cases hpd'
        exact ⟨⟨pd.channels_ ++ [ch]⟩, by rw [hp, upd_self],
          List.mem_append.mpr (Or.inl hm)⟩
      · exact ⟨pd', by rw [hp, upd_ne _ _ _ hpe]; exact hpd', hm⟩
  · intro ch' chd' hch' c hcm
    rw [hc] at hch'
    by_cases hne : ch' = ch
    · subst hne
      rw [upd_self] at hch'
      cases hch'
      obtain ⟨cd, hcd, hb⟩ := hw.chanCons ch' chd hchd c hcm
      exact ⟨cd, by rw [hco]; exact hcd, hb⟩
    · rw [upd_ne _ _ _ hne] at hch'
      obtain ⟨cd, hcd, hb⟩ := hw.chanCons ch' chd' hch' c hcm
      exact ⟨cd, by rw [hco]; exact hcd, hb⟩
  · intro c cd hcd ch' hch'
    rw [hco] at hcd
    obtain ⟨chd'', hchd'', hm⟩ := hw.consChan c cd hcd ch' hch'
    by_cases hne : ch' = ch
    · subst hne
      rw [hchd] at hchd''
      cases hchd''
      exact ⟨⟨chd.consumers_, some pid⟩, by rw [hc, upd_self], hm⟩
    · exact ⟨chd'', by rw [hc, upd_ne _ _ _ hne]; exact hchd'', hm⟩

theorem WF_construct_producer {State : Type} {w w' : World State} {p ch : Nat}
    (hw : WF w) (hun : Unlisted w ch) (h : Producer.construct w p ch = some w') :
    WF w' := by
  obtain ⟨hpn, chd, hchd, hc, hp, hco⟩ := construct_producer_spec h
  constructor
  · intro pid pd hpd ch' hch'
    rw [hp] at hpd
    by_cases hpe : pid = p
    · rw [hpe, upd_self] at hpd
      cases hpd
      have hce : ch' = ch := by simpa using hch'
      refine ⟨⟨chd.consumers_, some p⟩, by rw [hce, hc, upd_self], ?_⟩
      show some p = some pid
      rw [hpe]
    · rw [upd_ne _ _ _ hpe] at hpd
      obtain ⟨chd', hchd', hb⟩ := hw.prodChan pid pd hpd ch' hch'
      have hne : ch' ≠ ch := fun he => hun pid pd hpd (he ▸ hch')
      exact ⟨chd', by rw [hc, upd_ne _ _ _ hne]; exact hchd', hb⟩
  · intro ch' chd' hch' pid hpid
    rw [hc] at hch'
    by_cases hne : ch' = ch
    · rw [hne, upd_self] at hch'
      cases hch'
      have hpp : p = pid := Option.some.inj hpid
      refine ⟨⟨[ch]⟩, by rw [hp, ← hpp, upd_self], ?_⟩
      rw [hne]
      exact List.mem_singleton.mpr rfl
    · rw [upd_ne _ _ _ hne] at hch'
      obtain ⟨pd', hpd', hm⟩ := hw.chanProd ch' chd' hch' pid hpid
      have hpe : pid ≠ p := fun he => by
        rw [he, hpn] at hpd'
        exact Option.noConfusion hpd'
      exact ⟨pd', by rw [hp, upd_ne _ _ _ hpe]; exact hpd', hm⟩
  · intro ch' chd' hch' c hcm
    rw [hc] at hch'
    by_cases hne : ch' = ch
    · rw [hne, upd_self] at hch'
      cases hch'
      obtain ⟨cd, hcd, hb⟩ := hw.chanCons ch chd hchd c hcm
      exact ⟨cd, by rw [hco]; exact hcd, by rw [hne]; exact hb⟩
    · rw [upd_ne _ _ _ hne] at hch'
      obtain ⟨cd, hcd, hb⟩ := hw.chanCons ch' chd' hch' c hcm
      exact ⟨cd, by rw [hco]; exact hcd, hb⟩
  · intro c cd hcd ch' hch'
    rw [hco] at hcd
    obtain ⟨chd'', hchd'', hm⟩ := hw.consChan c cd hcd ch' hch'
    by_cases hne : ch' = ch
    · rw [hne, hchd] at hchd''
      cases hchd''
      exact ⟨⟨chd.consumers_, some p⟩, by rw [hne, hc, upd_self], hm⟩
    · exact ⟨chd'', by rw [hc, upd_ne _ _ _ hne]; exact hchd'', hm⟩

theorem WF_construct_consumer {State : Type} [Inhabited State] {w w' : World State}
    {c ch : Nat} (hw : WF w) (h : Consumer.construct w c ch = some w') : WF w' := by
  obtain ⟨hcn, chd, hchd, hc, hp, hco⟩ := construct_consumer_spec h
  constructor
  · intro pid pd hpd ch' hch'
    rw [hp] at hpd
    obtain ⟨chd', hchd', hb⟩ := hw.prodChan pid pd hpd ch' hch'
    by_cases hne : ch' = ch
    · rw [hne, hchd] at hchd'
      cases hchd'
      exact ⟨⟨chd.consumers_ ++ [c], chd.producer_⟩, by rw [hne, hc, upd_self], hb⟩
    · exact ⟨chd', by rw [hc, upd_ne _ _ _ hne]; exact hchd', hb⟩
  · intro ch' chd' hch' pid hpid
    rw [hc] at hch'
    by_cases hne : ch' = ch
    · rw [hne, upd_self] at hch'
      cases hch'
      obtain ⟨pd, hpd, hm⟩ := hw.chanProd ch chd hchd pid hpid
      exact ⟨pd, by rw [hp]; exact hpd, by rw [hne]; exact hm⟩
    · rw [upd_ne _ _ _ hne] at hch'
      obtain ⟨pd, hpd, hm⟩ := hw.chanProd ch' chd' hch' pid hpid
      exact ⟨pd, by rw [hp]; exact hpd, hm⟩
  · intro ch' chd' hch' c' hcm
    rw [hc] at hch'
    by_cases hne : ch' = ch
    · rw [hne, upd_self] at hch'
      cases hch'
      rcases List.mem_append.mp hcm with hm | hm
      · obtain ⟨cd, hcd, hb⟩ := hw.chanCons ch chd hchd c' hm
        have hcc : c' ≠ c := fun he => by
          rw [he, hcn] at hcd
          exact Option.noConfusion hcd
        exact ⟨cd, by rw [hco, upd_ne _ _ _ hcc]; exact hcd, by rw [hne]; exact hb⟩
      · rw [List.mem_singleton] at hm
        refine ⟨⟨some ch, default⟩, by rw [hco, hm, upd_self], ?_⟩
        show some ch = some ch'
        rw [hne]
    · rw [upd_ne _ _ _ hne] at hch'
      obtain ⟨cd, hcd, hb⟩ := hw.chanCons ch' chd' hch' c' hcm
      have hcc : c' ≠ c := fun he => by
        rw [he, hcn] at hcd
        exact Option.noConfusion hcd
      exact ⟨cd, by rw [hco, upd_ne _ _ _ hcc]; exact hcd, hb⟩
  · intro c' cd hcd ch' hch'
    rw [hco] at hcd
    by_cases hce : c' = c
    · rw [hce, upd_self] at hcd
      cases hcd
      have heq : ch = ch' := Option.some.inj hch'
      refine ⟨⟨chd.consumers_ ++ [c], chd.producer_⟩, by rw [hc, ← heq, upd_self], ?_⟩
      rw [hce]
      exact List.mem_append.mpr (Or.inr (List.mem_singleton.mpr rfl))
    · rw [upd_ne _ _ _ hce] at hcd
      obtain ⟨chd'', hchd'', hm⟩ := hw.consChan c' cd hcd ch' hch'
      by_cases hne : ch' = ch
      · rw [hne, hchd] at hchd''
        cases hchd''
        exact ⟨⟨chd.consumers_ ++ [c], chd.producer_⟩, by rw [hne, hc, upd_self],
          List.mem_append.mpr (Or.inl hm)⟩
      · exact ⟨chd'', by rw [hc, upd_ne _ _ _ hne]; exact hchd'', hm⟩

theorem WF_destruct_consumer {State : Type} {w w' : World State} {c : Nat}
    (hw : WF w) (h : Consumer.destruct w c = some w') : WF w' := by
  obtain ⟨cd0, hcd0, hco, hp, hcase⟩ := destruct_consumer_spec h
  rcases hcase with ⟨hnone, hcch⟩ | ⟨ch0, chd0, hch0, hchd0, hc⟩
  · constructor
    · intro pid pd hpd ch' hch'
      rw [hp] at hpd
      rw [hcch]
      exact hw.prodChan pid pd hpd ch' hch'
    · intro ch' chd' hch' pid hpid
      rw [hcch] at hch'
      obtain ⟨pd, hpd, hm⟩ := hw.chanProd ch' chd' hch' pid hpid
      exact ⟨pd, by rw [hp]; exact hpd, hm⟩
    · intro ch' chd' hch' m hm
      rw [hcch] at hch'
      obtain ⟨cd, hcd, hb⟩ := hw.chanCons ch' chd' hch' m hm
      have hmc : m ≠ c := fun he => by
        rw [he, hcd0] at hcd
        cases hcd
        rw [hnone] at hb
        exact Option.noConfusion hb
      exact ⟨cd, by rw [hco, upd_ne _ _ _ hmc]; exact hcd, hb⟩
    · intro c' cd hcd ch' hch'
      rw [hco] at hcd
      by_cases hce : c' = c
      · rw [hce, upd_self] at hcd
        exact Option.noConfusion hcd
      · rw [upd_ne _ _ _ hce] at hcd
        obtain ⟨chd'', hchd'', hm⟩ := hw.consChan c' cd hcd ch' hch'
        exact ⟨chd'', by rw [hcch]; exact hchd'', hm⟩
  · constructor
    · intro pid pd hpd ch' hch'
      rw [hp] at hpd
      obtain ⟨chd', hchd', hb⟩ := hw.prodChan pid pd hpd ch' hch'
      by_cases hne : ch' = ch0
      · rw [hne, hchd0] at hchd'
        cases hchd'
        exact ⟨⟨chd0.consumers_.filter (fun x => x ≠ c), chd0.producer_⟩,
          by rw [hne, hc, upd_self], hb⟩
      · exact ⟨chd', by rw [hc, upd_ne _ _ _ hne]; exact hchd', hb⟩
    · intro ch' chd' hch' pid hpid
      rw [hc] at hch'
      by_cases hne : ch' = ch0
      · rw [hne, upd_self] at hch'
        cases hch'
        obtain ⟨pd, hpd, hm⟩ := hw.chanProd ch0 chd0 hchd0 pid hpid
        exact ⟨pd, by rw [hp]; exact hpd, by rw [hne]; exact hm⟩
      · rw [upd_ne _ _ _ hne] at hch'
        obtain ⟨pd, hpd, hm⟩ := hw.chanProd ch' chd' hch' pid hpid
        exact ⟨pd, by rw [hp]; exact hpd, hm⟩
    · intro ch' chd' hch' m hm
      rw [hc] at hch'
      by_cases hne : ch' = ch0
      · rw [hne, upd_self] at hch'
        cases hch'
        have hm' : m ∈ chd0.consumers_ ∧ m ≠ c := by
          simpa using List.mem_filter.mp hm
        obtain ⟨cd, hcd, hb⟩ := hw.chanCons ch0 chd0 hchd0 m hm'.1
        exact ⟨cd, by rw [hco, upd_ne _ _ _ hm'.2]; exact hcd, by rw [hne]; exact hb⟩
      · rw [upd_ne _ _ _ hne] at hch'
        obtain ⟨cd, hcd, hb⟩ := hw.chanCons ch' chd' hch' m hm
        have hmc : m ≠ c := fun he => by
          rw [he, hcd0] at hcd
          cases hcd
          rw [hch0] at hb
          exact hne (Option.some.inj hb).symm
        exact ⟨cd, by rw [hco, upd_ne _ _ _ hmc]; exact hcd, hb⟩
    · intro c' cd hcd ch' hch'
      rw [hco] at hcd
      by_cases hce : c' = c
      · rw [hce, upd_self] at hcd
        exact Option.noConfusion hcd
      · rw [upd_ne _ _ _ hce] at hcd
        obtain ⟨chd'', hchd'', hm⟩ := hw.consChan c' cd hcd ch' hch'
        by_cases hne : ch' = ch0
        · rw [hne, hchd0] at hchd''
          cases hchd''
          refine ⟨⟨chd0.consumers_.filter (fun x => x ≠ c), chd0.producer_⟩,
            by rw [hne, hc, upd_self], ?_⟩
          simp only [List.mem_filter]
          exact ⟨hm, by simpa using hce⟩
        · exact ⟨chd'', by rw [hc, upd_ne _ _ _ hne]; exact hchd'', hm⟩

theorem WF_destruct_producer {State : Type} {w w' : World State} {p : Nat}
    (hw : WF w) (h : Producer.destruct w p = some w') : WF w' := by
  obtain ⟨pd0, hpd0, hp, hco, hout, hin⟩ := destruct_producer_spec h
  constructor
  · intro pid pd hpd ch' hch'
    rw [hp] at hpd
    by_cases hpe : pid = p
    · rw [hpe, upd_self] at hpd
      exact Option.noConfusion hpd
    · rw [upd_ne _ _ _ hpe] at hpd
      obtain ⟨chd', hchd', hb⟩ := hw.prodChan pid pd hpd ch' hch'
      have hnm : ch' ∉ pd0.channels_ := by
        intro hm
        obtain ⟨chd0, hchd0, hb0⟩ := hw.prodChan p pd0 hpd0 ch' hm
        rw [hchd0] at hchd'
        cases hchd'
        rw [hb0] at hb
        exact hpe (Option.some.inj hb).symm
      exact ⟨chd', by rw [hout ch' hnm]; exact hchd', hb⟩
  · intro ch' chd' hch' pid hpid
    by_cases hm : ch' ∈ pd0.channels_
    · obtain ⟨chd0, hchd0, hch0'⟩ := hin ch' hm
      rw [hch0'] at hch'
      cases hch'
      exact Option.noConfusion hpid
    · rw [hout ch' hm] at hch'
      obtain ⟨pd', hpd', hm'⟩ := hw.chanProd ch' chd' hch' pid hpid
      have hpe : pid ≠ p := by
        intro he
        rw [he, hpd0] at hpd'
        cases hpd'
        exact hm hm'
      exact ⟨pd', by rw [hp, upd_ne _ _ _ hpe]; exact hpd', hm'⟩
  · intro ch' chd' hch' m hmm
    by_cases hm : ch' ∈ pd0.channels_
    · obtain ⟨chd0, hchd0, hch0'⟩ := hin ch' hm
      rw [hch0'] at hch'
      cases hch'
      obtain ⟨cd, hcd, hb⟩ := hw.chanCons ch' chd0 hchd0 m hmm
      exact ⟨cd, by rw [hco]; exact hcd, hb⟩
    · rw [hout ch' hm] at hch'
      obtain ⟨cd, hcd, hb⟩ := hw.chanCons ch' chd' hch' m hmm
      exact ⟨cd, by rw [hco]; exact hcd, hb⟩
  · intro c cd hcd ch' hch'
    rw [hco] at hcd
    obtain ⟨chd'', hchd'', hm''⟩ := hw.consChan c cd hcd ch' hch'
    by_cases hm : ch' ∈ pd0.channels_
    · obtain ⟨chd0, hchd0, hch0'⟩ := hin ch' hm
      rw [hchd0] at hchd''
      cases hchd''
      exact ⟨⟨chd''.consumers_, none⟩, hch0', hm''⟩
    · exact ⟨chd'', by rw [hout ch' hm]; exact hchd'', hm''⟩

theorem WF_destruct_channel {State : Type} {w w' : World State} {ch : Nat}
    (hw : WF w) (h : Channel.destruct w ch = some w') : WF w' := by
  obtain ⟨chd0, hchd0, hc, hout, hin, hpcase⟩ := destruct_channel_spec h
  have hCC : ChanCons w' := by
    intro ch' chd' hch' m hm
    rw [hc] at hch'
    by_cases hne : ch' = ch
    · rw [hne, upd_self] at hch'
      exact Option.noConfusion hch'
    · rw [upd_ne _ _ _ hne] at hch'
      obtain ⟨cd, hcd, hb⟩ := hw.chanCons ch' chd' hch' m hm
      have hnm : m ∉ chd0.consumers_ := by
        intro hmm
        obtain ⟨cd1, hcd1, hb1⟩ := hw.chanCons ch chd0 hchd0 m hmm
        rw [hcd1] at hcd
        cases hcd
        rw [hb1] at hb
        exact hne (Option.some.inj hb).symm
      exact ⟨cd, by rw [hout m hnm]; exact hcd, hb⟩
  have hCH : ∀ c cd, w'.consumers c = some cd →
      ∀ ch', cd.channel_ = some ch' → ∃ chd, w'.channels ch' = some chd ∧ c ∈ chd.consumers_ := by
    intro c cd hcd ch' hch'
    by_cases hm : c ∈ chd0.consumers_
    · obtain ⟨cd1, hcd1, hcd1'⟩ := hin c hm
      rw [hcd1'] at hcd
      cases hcd
      exact Option.noConfusion hch'
    · rw [hout c hm] at hcd
      obtain ⟨chd'', hchd'', hm''⟩ := hw.consChan c cd hcd ch' hch'
      have hne : ch' ≠ ch := by
        intro he
        rw [he, hchd0] at hchd''
        cases hchd''
        exact hm hm''
      exact ⟨chd'', by rw [hc, upd_ne _ _ _ hne]; exact hchd'', hm''⟩
  rcases hpcase with ⟨hpn, hpr⟩ | ⟨pid0, pd0, hpc, hpd0, hpr⟩
  · constructor
    · intro pid pd hpd ch' hch'
      rw [hpr] at hpd
      obtain ⟨chd', hchd', hb⟩ := hw.prodChan pid pd hpd ch' hch'
      have hne : ch' ≠ ch := by
        intro he
        rw [he, hchd0] at hchd'
        cases hchd'
        rw [hpn] at hb
        exact Option.noConfusion hb
      exact ⟨chd', by rw [hc, upd_ne _ _ _ hne]; exact hchd', hb⟩
    · intro ch' chd' hch' pid hpid
      rw [hc] at hch'
      by_cases hne : ch' = ch
      · rw [hne, upd_self] at hch'
        exact Option.noConfusion hch'
      · rw [upd_ne _ _ _ hne] at hch'
        obtain ⟨pd, hpd, hm⟩ := hw.chanProd ch' chd' hch' pid hpid
        exact ⟨pd, by rw [hpr]; exact hpd, hm⟩
    · exact hCC
    · exact hCH
  · constructor
    · intro pid pd hpd ch' hch'
      rw [hpr] at hpd
      by_cases hpe : pid = pid0
      · rw [hpe, upd_self] at hpd
        cases hpd
        have hch'' : ch' ∈ pd0.channels_ ∧ ch' ≠ ch := by
          simpa using List.mem_filter.mp hch'
        obtain ⟨chd', hchd', hb⟩ := hw.prodChan pid0 pd0 hpd0 ch' hch''.1
        refine ⟨chd', by rw [hc, upd_ne _ _ _ hch''.2]; exact hchd', ?_⟩
        rw [hpe]
        exact hb
      · rw [upd_ne _ _ _ hpe] at hpd
        obtain ⟨chd', hchd', hb⟩ := hw.prodChan pid pd hpd ch' hch'
        have hne : ch' ≠ ch := by
          intro he
          rw [he, hchd0] at hchd'
          cases hchd'
          rw [hpc] at hb
          exact hpe (Option.some.inj hb).symm
        exact ⟨chd', by rw [hc, upd_ne _ _ _ hne]; exact hchd', hb⟩
    · intro ch' chd' hch' pid hpid
      rw [hc] at hch'
      by_cases hne : ch' = ch
      · rw [hne, upd_self] at hch'
        exact Option.noConfusion hch'
      · rw [upd_ne _ _ _ hne] at hch'
        obtain ⟨pd', hpd', hm'⟩ := hw.chanProd ch' chd' hch' pid hpid
        by_cases hpe : pid = pid0
        · rw [hpe, hpd0] at hpd'
          cases hpd'
          refine ⟨⟨pd0.channels_.filter (fun x => x ≠ ch)⟩, by rw [hpr, hpe, upd_self], ?_⟩
          simp only [List.mem_filter]
          exact ⟨hm', by simpa using hne⟩
        · exact ⟨pd', by rw [hpr, upd_ne _ _ _ hpe]; exact hpd', hm'⟩
    · exact hCC
    · exact hCH

theorem WF_produce {State : Type} {w w' : World State} {p : Nat} {s : State}
    {tr : List (Nat × State × State)} (hw : WF w)
    (h : Producer.produce w p s = some (w', tr)) : WF w' := by
  obtain ⟨pd, hp, hch, hpr, hout, hdisj, -, -⟩ := produce_spec h
  constructor
  · intro pid pd' hpd ch' hch'
    rw [hpr] at hpd
    rw [hch]
    exact hw.prodChan pid pd' hpd ch' hch'
  · intro ch' chd' hch' pid hpid
    rw [hch] at hch'
    obtain ⟨pd', hpd', hm⟩ := hw.chanProd ch' chd' hch' pid hpid
    exact ⟨pd', by rw [hpr]; exact hpd', hm⟩
  · intro ch' chd' hch' m hm
    rw [hch] at hch'
    obtain ⟨cd, hcd, hb⟩ := hw.chanCons ch' chd' hch' m hm
    rcases hdisj m with heq | ⟨cd1, hcd1, hcd1'⟩
    · exact ⟨cd, by rw [heq]; exact hcd, hb⟩
    · rw [hcd1] at hcd
      cases hcd
      exact ⟨⟨cd.channel_, s⟩, hcd1', hb⟩
  · intro c cd hcd ch' hch'
    rcases hdisj c with heq | ⟨cd1, hcd1, hcd1'⟩
    · rw [heq] at hcd
      obtain ⟨chd'', hchd'', hm''⟩ := hw.consChan c cd hcd ch' hch'
      exact ⟨chd'', by rw [hch]; exact hchd'', hm''⟩
    · rw [hcd1'] at hcd
      cases hcd
      obtain ⟨chd'', hchd'', hm''⟩ := hw.consChan c cd1 hcd1 ch' hch'
      exact ⟨chd'', by rw [hch]; exact hchd'', hm''⟩

/-! ## Safe reachability -/


theorem WF_step {State : Type} [Inhabited State] {w w' : World State} {op : Op State}
    (hw : WF w) (hg : SafeGuard w op) (h : step w op = some w') : WF w' := by
  cases op with
  | newChannel ch => exact WF_construct_channel hw h
  | newProducer p ch => exact WF_construct_producer hw hg h
  | newConsumer c ch => exact WF_construct_consumer hw h
  | setProducer ch p =>
    cases p with
    | none => exact WF_set_producer_none hw hg h
    | some pid => exact WF_set_producer_some hw hg h
  | delChannel ch => exact WF_destruct_channel hw h
  | delProducer p => exact WF_destruct_producer hw h
  | delConsumer c => exact WF_destruct_consumer hw h
  | produce p s =>
    simp only [step] at h
    cases hp2 : Producer.produce w p s with
    | none => rw [hp2] at h; exact Option.noConfusion h
    | some r =>
      rw [hp2] at h
      simp only [Option.map_some'] at h
      cases h
      exact WF_produce hw (by rw [← Prod.mk.eta (p := r)] at hp2; exact hp2)


theorem WF_empty (State : Type) : WF (World.empty State) := by
  constructor
  · intro pid pd hpd
    exact Option.noConfusion hpd
  · intro ch chd hch
    exact Option.noConfusion hch
  · intro ch chd hch
    exact Option.noConfusion hch
  · intro c cd hcd
    exact Option.noConfusion hcd

theorem SafeReach_WF {State : Type} [Inhabited State] {w : World State}
    (h : SafeReach w) : WF w := by
  induction h with
  | empty => exact WF_empty State
  | next _ hg hs ih => exact WF_step ih hg hs

/-! ## Consumer-side consistency holds on every reachable world -/

theorem ChanCons_step {State : Type} [Inhabited State] {w w' : World State} {op : Op State}
    (hw : ChanCons w) (h : step w op = some w') : ChanCons w' := by
  cases op with
  | newChannel ch =>
    obtain ⟨hchn, hc, hp, hco⟩ := construct_channel_spec h
    intro ch' chd' hch' c hcm
    rw [hc] at hch'
    by_cases hne : ch' = ch
    · rw [hne, upd_self] at hch'
      cases hch'
      exact absurd hcm (List.not_mem_nil c)
    · rw [upd_ne _ _ _ hne] at hch'
      obtain ⟨cd, hcd, hb⟩ := hw ch' chd' hch' c hcm
      exact ⟨cd, by rw [hco]; exact hcd, hb⟩
  | newProducer p ch =>
    obtain ⟨hpn, chd, hchd, hc, hp, hco⟩ := construct_producer_spec h
    intro ch' chd' hch' c hcm
    rw [hc] at hch'
    by_cases hne : ch' = ch
    · rw [hne, upd_self] at hch'
      cases hch'
      obtain ⟨cd, hcd, hb⟩ := hw ch chd hchd c hcm
      exact ⟨cd, by rw [hco]; exact hcd, by rw [hne]; exact hb⟩
    · rw [upd_ne _ _ _ hne] at hch'
      obtain ⟨cd, hcd, hb⟩ := hw ch' chd' hch' c hcm
      exact ⟨cd, by rw [hco]; exact hcd, hb⟩
  | newConsumer c ch =>
    obtain ⟨hcn, chd, hchd, hc, hp, hco⟩ := construct_consumer_spec h
    intro ch' chd' hch' c' hcm
    rw [hc] at hch'
    by_cases hne : ch' = ch
    · rw [hne, upd_self] at hch'
      cases hch'
      rcases List.mem_append.mp hcm with hm | hm
      · obtain ⟨cd, hcd, hb⟩ := hw ch chd hchd c' hm
        have hcc : c' ≠ c := fun he => by
          rw [he, hcn] at hcd
          exact Option.noConfusion hcd
        exact ⟨cd, by rw [hco, upd_ne _ _ _ hcc]; exact hcd, by rw [hne]; exact hb⟩
      · rw [List.mem_singleton] at hm
        refine ⟨⟨some ch, default⟩, by rw [hco, hm, upd_self], ?_⟩
        show some ch = some ch'
        rw [hne]
    · rw [upd_ne _ _ _ hne] at hch'
      obtain ⟨cd, hcd, hb⟩ := hw ch' chd' hch' c' hcm
      have hcc : c' ≠ c := fun he => by
        rw [he, hcn] at hcd
        exact Option.noConfusion hcd
      exact ⟨cd, by rw [hco, upd_ne _ _ _ hcc]; exact hcd, hb⟩
  | setProducer ch p =>
    cases p with
    | none =>
      obtain ⟨chd, hchd, hc, hp, hco⟩ := set_producer_none_spec h
      intro ch' chd' hch' c hcm
      rw [hc] at hch'
      by_cases hne : ch' = ch
      · rw [hne, upd_self] at hch'
        cases hch'
        obtain ⟨cd, hcd, hb⟩ := hw ch chd hchd c hcm
        exact ⟨cd, by rw [hco]; exact hcd, by rw [hne]; exact hb⟩
      · rw [upd_ne _ _ _ hne] at hch'
        obtain ⟨cd, hcd, hb⟩ := hw ch' chd' hch' c hcm
        exact ⟨cd, by rw [hco]; exact hcd, hb⟩
    | some pid =>
      obtain ⟨chd, pd, hchd, hpd, hc, hp, hco⟩ := set_producer_some_spec h
      intro ch' chd' hch' c hcm
      rw [hc] at hch'
      by_cases hne : ch' = ch
      · rw [hne, upd_self] at hch'
        cases hch'
        obtain ⟨cd, hcd, hb⟩ := hw ch chd hchd c hcm
        exact ⟨cd, by rw [hco]; exact hcd, by rw [hne]; exact hb⟩
      · rw [upd_ne _ _ _ hne] at hch'
        obtain ⟨cd, hcd, hb⟩ := hw ch' chd' hch' c hcm
        exact ⟨cd, by rw [hco]; exact hcd, hb⟩
  | delChannel ch =>
    obtain ⟨chd0, hchd0, hc, hout, hin, hpcase⟩ := destruct_channel_spec h
    intro ch' chd' hch' m hm
    rw [hc] at hch'
    by_cases hne : ch' = ch
    · rw [hne, upd_self] at hch'
      exact Option.noConfusion hch'
    · rw [upd_ne _ _ _ hne] at hch'
      obtain ⟨cd, hcd, hb⟩ := hw ch' chd' hch' m hm
      have hnm : m ∉ chd0.consumers_ := by
        intro hmm
        obtain ⟨cd1, hcd1, hb1⟩ := hw ch chd0 hchd0 m hmm
        rw [hcd1] at hcd
        cases hcd
        rw [hb1] at hb
        exact hne (Option.some.inj hb).symm
      exact ⟨cd, by rw [hout m hnm]; exact hcd, hb⟩
  | delProducer p =>
    obtain ⟨pd0, hpd0, hp, hco, hout, hin⟩ := destruct_producer_spec h
    intro ch' chd' hch' m hmm
    by_cases hm : ch' ∈ pd0.channels_
    · obtain ⟨chd0, hchd0, hch0'⟩ := hin ch' hm
      rw [hch0'] at hch'
      cases hch'
      obtain ⟨cd, hcd, hb⟩ := hw ch' chd0 hchd0 m hmm
      exact ⟨cd, by rw [hco]; exact hcd, hb⟩
    · rw [hout ch' hm] at hch'
      obtain ⟨cd, hcd, hb⟩ := hw ch' chd' hch' m hmm
      exact ⟨cd, by rw [hco]; exact hcd, hb⟩
  | delConsumer c =>
    obtain ⟨cd0, hcd0, hco, hp, hcase⟩ := destruct_consumer_spec h
    rcases hcase with ⟨hnone, hcch⟩ | ⟨ch0, chd0, hch0, hchd0, hc⟩
    · intro ch' chd' hch' m hm
      rw [hcch] at hch'
      obtain ⟨cd, hcd, hb⟩ := hw ch' chd' hch' m hm
      have hmc : m ≠ c := fun he => by
        rw [he, hcd0] at hcd
        cases hcd
        rw [hnone] at hb
        exact Option.noConfusion hb
      exact ⟨cd, by rw [hco, upd_ne _ _ _ hmc]; exact hcd, hb⟩
    · intro ch' chd' hch' m hm
      rw [hc] at hch'
      by_cases hne : ch' = ch0
      · rw [hne, upd_self] at hch'
        cases hch'
        have hm' : m ∈ chd0.consumers_ ∧ m ≠ c := by
          simpa using List.mem_filter.mp hm
        obtain ⟨cd, hcd, hb⟩ := hw ch0 chd0 hchd0 m hm'.1
        exact ⟨cd, by rw [hco, upd_ne _ _ _ hm'.2]; exact hcd, by rw [hne]; exact hb⟩
      · rw [upd_ne _ _ _ hne] at hch'
        obtain ⟨cd, hcd, hb⟩ := hw ch' chd' hch' m hm
        have hmc : m ≠ c := fun he => by
          rw [he, hcd0] at hcd
          cases hcd
          rw [hch0] at hb
          exact hne (Option.some.inj hb).symm
        exact ⟨cd, by rw [hco, upd_ne _ _ _ hmc]; exact hcd, hb⟩
  | produce p s =>
    simp only [step] at h
    cases hp2 : Producer.produce w p s with
    | none => rw [hp2] at h; exact Option.noConfusion h
    | some r =>
      rw [hp2] at h
      simp only [Option.map_some'] at h
      cases h
      have hp2' : Producer.produce w p s = some (r.1, r.2) := by
        rw [Prod.mk.eta]; exact hp2
      obtain ⟨pd, hp, hch, hpr, hout, hdisj, -, -⟩ := produce_spec hp2'
      intro ch' chd' hch' m hm
      rw [hch] at hch'
      obtain ⟨cd, hcd, hb⟩ := hw ch' chd' hch' m hm
      rcases hdisj m with heq | ⟨cd1, hcd1, hcd1'⟩
      · exact ⟨cd, by rw [heq]; exact hcd, hb⟩
      · rw [hcd1] at hcd
        cases hcd
        exact ⟨⟨cd.channel_, s⟩, hcd1', hb⟩

theorem ChanCons_runFrom {State : Type} [Inhabited State] (ops : List (Op State)) :
    ∀ {w w' : World State}, ChanCons w → runFrom w ops = some w' → ChanCons w' := by
  induction ops with
  | nil =>
    intro w w' hw h
    simp only [runFrom] at h
    cases h
    exact hw
  | cons op ops ih =>
    intro w w' hw h
    simp only [runFrom] at h
    cases hs : step w op with
    | none => rw [hs] at h; exact Option.noConfusion h
    | some w1 =>
      rw [hs] at h
      exact ih (ChanCons_step hw hs) h

theorem ChanCons_empty (State : Type) : ChanCons (World.empty State) := by
  intro ch chd hch
  exact Option.noConfusion hch

theorem Reachable_ChanCons {State : Type} [Inhabited State] {w : World State}
    (h : Reachable w) : ChanCons w := by
  obtain ⟨ops, hops⟩ := h
  exact ChanCons_runFrom ops (ChanCons_empty State) hops

/-! ## A severed consumer stays severed and keeps its cached state -/


theorem severedFrozen_step {State : Type} [Inhabited State] {w w' : World State}
    {op : Op State} {c : Nat} {st : State} (hcc : ChanCons w) (hs : SeveredFrozen c st w)
    (h : step w op = some w') (hop : ∀ ch', op ≠ Op.newConsumer c ch') :
    SeveredFrozen c st w' := by
  cases op with
  | newChannel ch =>
    obtain ⟨-, -, -, hco⟩ := construct_channel_spec h
    intro cd hcd
    rw [hco] at hcd
    exact hs cd hcd
  | newProducer p ch =>
    obtain ⟨-, -, -, -, -, hco⟩ := construct_producer_spec h
    intro cd hcd
    rw [hco] at hcd
    exact hs cd hcd
  | newConsumer c' ch =>
    obtain ⟨hcn, chd, hchd, hc, hp, hco⟩ := construct_consumer_spec h
    have hne : c ≠ c' := fun he => hop ch (by rw [he])
    intro cd hcd
    rw [hco, upd_ne _ _ _ hne] at hcd
    exact hs cd hcd
  | setProducer ch p =>
    cases p with
    | none =>
      obtain ⟨-, -, -, -, hco⟩ := set_producer_none_spec h
      intro cd hcd
      rw [hco] at hcd
      exact hs cd hcd
    | some pid =>
      obtain ⟨-, -, -, -, -, -, hco⟩ := set_producer_some_spec h
      intro cd hcd
      rw [hco] at hcd
      exact hs cd hcd
  | delChannel ch =>
    obtain ⟨chd0, hchd0, hc, hout, hin, -⟩ := destruct_channel_spec h
    have hnm : c ∉ chd0.consumers_ := by
      intro hm
      obtain ⟨cd, hcd, hb⟩ := hcc ch chd0 hchd0 c hm
      rw [(hs cd hcd).1] at hb
      exact Option.noConfusion hb
    intro cd hcd
    rw [hout c hnm] at hcd
    exact hs cd hcd
  | delProducer p =>
    obtain ⟨-, -, -, hco, -, -⟩ := destruct_producer_spec h
    intro cd hcd
    rw [hco] at hcd
    exact hs cd hcd
  | delConsumer c' =>
    obtain ⟨cd0, hcd0, hco, -, -⟩ := destruct_consumer_spec h
    intro cd hcd
    rw [hco] at hcd
    by_cases hce : c = c'
    · rw [hce, upd_self] at hcd
      exact Option.noConfusion hcd
    · rw [upd_ne _ _ _ hce] at hcd
      exact hs cd hcd
  | produce p s =>
    simp only [step] at h
    cases hp2 : Producer.produce w p s with
    | none => rw [hp2] at h; exact Option.noConfusion h
    | some r =>
      rw [hp2] at h
      simp only [Option.map_some'] at h
      cases h
      have hp2' : Producer.produce w p s = some (r.1, r.2) := by
        rw [Prod.mk.eta]; exact hp2
      obtain ⟨pd, hp, hch, hpr, hout, hdisj, -, -⟩ := produce_spec hp2'
      have huntouched : r.1.consumers c = w.consumers c := by
        refine hout c ?_
        intro ch hm chd hchd hcm
        obtain ⟨cd, hcd, hb⟩ := hcc ch chd hchd c hcm
        rw [(hs cd hcd).1] at hb
        exact Option.noConfusion hb
      intro cd hcd
      rw [huntouched] at hcd
      exact hs cd hcd

theorem severedFrozen_runFrom {State : Type} [Inhabited State] {c : Nat} {st : State}
    (ops : List (Op State)) :
    ∀ {w w' : World State}, ChanCons w → SeveredFrozen c st w →
      runFrom w ops = some w' → (∀ ch', Op.newConsumer c ch' ∉ ops) →
      SeveredFrozen c st w' := by
  induction ops with
  | nil =>
    intro w w' _ hs h _
    simp only [runFrom] at h
    cases h
    exact hs
  | cons op ops ih =>
    intro w w' hcc hs h hop
    simp only [runFrom] at h
    cases hstep : step w op with
    | none => rw [hstep] at h; exact Option.noConfusion h
    | some w1 =>
      rw [hstep] at h
      have hop1 : ∀ ch', op ≠ Op.newConsumer c ch' := by
        intro ch' he
        exact hop ch' (by rw [← he]; exact List.mem_cons_self op ops)
      refine ih (ChanCons_step hcc hstep)
        (severedFrozen_step hcc hs hstep hop1) h ?_
      intro ch' hm
      exact hop ch' (List.mem_cons_of_mem op hm)

/-! ## Further helper lemmas for the claim theorems -/

theorem upd_upd {α : Type} (f : Nat → Option α) (k : Nat) (v v' : Option α) :
    upd (upd f k v) k v' = upd f k v' := by
  funext k'
  by_cases h : k' = k <;> simp [upd, h]

theorem construct_producer_run {State : Type} {w : World State} {p ch : Nat}
    {chd : ChannelData} (hp : w.producers p = none) (hch : w.channels ch = some chd) :
    Producer.construct w p ch = some
      ⟨upd w.channels ch (some ⟨chd.consumers_, some p⟩),
       upd w.producers p (some ⟨[ch]⟩), w.consumers⟩ := by
  simp only [Producer.construct, hp, hch, Channel.set_producer, upd_self]
  rw [upd_upd]
  rfl

theorem deliver_fold_events {State : Type} (s : State) (L : List Nat) :
    ∀ {w w' : World State} {tr0 tr : List (Nat × State × State)},
      L.foldlM (deliverStep s) (w, tr0) = some (w', tr) → L.Nodup →
      ∀ c ∈ L, ∃ cd, w.consumers c = some cd ∧ (c, cd.state_, s) ∈ tr := by
  induction L with
  | nil =>
    intro w w' tr0 tr _ _ c hc
    exact absurd hc (List.not_mem_nil c)
  | cons a L ih =>
    intro w w' tr0 tr h hnd c hc
    simp only [List.foldlM_cons] at h
    cases ha : deliverStep s (w, tr0) a with
    | none =>
      rw [ha] at h
      exact Option.noConfusion h
    | some acc1 =>
      rw [ha] at h
      have h' : L.foldlM (deliverStep s) (acc1.1, acc1.2) = some (w', tr) := by
        rw [Prod.mk.eta]; exact h
      obtain ⟨cda, hcda, hcha, hpra, hcoa, htra⟩ := deliverStep_spec ha
      rcases List.mem_cons.mp hc with rfl | hm
      · refine ⟨cda, hcda, ?_⟩
        obtain ⟨-, -, -, -, trN, htr, -, -⟩ := deliver_fold_spec s L h'
        rw [htr, htra]
        exact List.mem_append.mpr (Or.inl (List.mem_append.mpr
          (Or.inr (List.mem_singleton.mpr rfl))))
      · have hca : c ≠ a := fun he => (List.nodup_cons.mp hnd).1 (he ▸ hm)
        obtain ⟨cd, hcd, hmem⟩ := ih h' (List.nodup_cons.mp hnd).2 c hm
        rw [hcoa, upd_ne _ _ _ hca] at hcd
        exact ⟨cd, hcd, hmem⟩

/-! ## The claims -/

/-- Claim C2: for every Producer `p` bound to one or more Channels, each with
zero or more registered Consumers, `p.produce(S)` delivers `S` to every
Consumer of every linked Channel, so that afterwards each such Consumer's
`state()` equals `S`; delivery proceeds over `p`'s channels in linkage order
and, within each Channel, over its consumers in registration order (the
delivery trace, projected to consumers, is exactly the concatenation of the
channels' registration lists in linkage order). -/
theorem C2_produce_fanout {State : Type} {w w' : World State} {p : Nat} {s : State}
    {tr : List (Nat × State × State)} {pd : ProducerData}
    (hp : w.producers p = some pd)
    (h : Producer.produce w p s = some (w', tr)) :
    (∀ ch ∈ pd.channels_, ∀ chd, w.channels ch = some chd →
      ∀ c ∈ chd.consumers_, ∃ cd', w'.consumers c = some cd' ∧ cd'.state_ = s) ∧
    tr.map Prod.fst =
      pd.channels_.flatMap (fun ch => ((w.channels ch).map ChannelData.consumers_).getD []) := by
  refine ⟨produce_delivers h hp, ?_⟩
  obtain ⟨pd', hp', -, -, -, -, htrm, -⟩ := produce_spec h
  rw [hp] at hp'
  cases hp'
  exact htrm

/-- Claim C3: for every Consumer and every delivered state `S`, the hook
`on_new_state(S)` is invoked strictly before the cached state is overwritten:
the value `state()` returns during the hook invocation (recorded in the
delivery trace) is the previous cached value, and after the delivery completes
`state()` returns `S`. -/
theorem C3_hook_order {State : Type} {w w' : World State} {ch c : Nat} {s : State}
    {tr : List (Nat × State × State)} {chd : ChannelData}
    (hch : w.channels ch = some chd) (hnd : chd.consumers_.Nodup) (hc : c ∈ chd.consumers_)
    (h : Channel.internal_produce w ch s = some (w', tr)) :
    ∃ cd, w.consumers c = some cd ∧ (c, cd.state_, s) ∈ tr ∧
      w'.consumers c = some ⟨cd.channel_, s⟩ := by
  simp only [Channel.internal_produce, hch] at h
  obtain ⟨cd, hcd, hmem⟩ := deliver_fold_events s chd.consumers_ h hnd c hc
  obtain ⟨-, -, -, hin, -⟩ := deliver_fold_spec s chd.consumers_ h
  obtain ⟨cd1, hcd1, hcd1'⟩ := hin c hc
  rw [hcd] at hcd1
  cases hcd1
  exact ⟨cd, hcd, hmem, hcd1'⟩

/-- Claim C4, refuted by the code: the claim says that for every
copy-constructible State type a freshly constructed Consumer's `state()`
equals the State type's default-constructed value.  The source declares
`State state_;` with no initializer (itc.hpp line 187), so for a
trivially-default-constructible State (such as a plain integer, which is
copy-constructible and therefore within the claim's scope) the member is
default-initialized to an indeterminate value; `state()` then returns that
indeterminate value, not the default-constructed one.  Evaluating the
faithful constructor at the failing input — the indeterminate contents of
the member being 1 — yields a fresh consumer whose `state()` is 1, which is
not the default-constructed value 0. -/
theorem C4_uninitialized_state :
    ∃ w' : World Nat,
      Consumer.construct_uninit
        (⟨upd (fun _ => none) 0 (some ⟨[], none⟩), fun _ => none,
          fun _ => none⟩ : World Nat) 1 0 1 = some w' ∧
      ∃ cd, w'.consumers 1 = some cd ∧ cd.state_ = 1 ∧ cd.state_ ≠ (default : Nat) := by
  have hs : (Consumer.construct_uninit
      (⟨upd (fun _ => none) 0 (some ⟨[], none⟩), fun _ => none,
        fun _ => none⟩ : World Nat) 1 0 1).isSome = true := by decide
  obtain ⟨w', hw'⟩ := Option.isSome_iff_exists.mp hs
  have h1 : (Consumer.construct_uninit
      (⟨upd (fun _ => none) 0 (some ⟨[], none⟩), fun _ => none,
        fun _ => none⟩ : World Nat) 1 0 1).map (fun x => x.consumers 1) =
      some (some ⟨some 0, 1⟩) := by decide
  rw [hw'] at h1
  refine ⟨w', hw', ⟨some 0, 1⟩, by simpa using h1, rfl, by decide⟩

/-- Claim C5: for every Channel `ch` with a Consumer `c` bound to it,
destroying `ch` causes `c.channel()` to return none, and `c.state()` still
returns the last cached value. -/
theorem C5_channel_destruct_severs {State : Type} {w w' : World State} {ch c : Nat}
    {chd : ChannelData} (hch : w.channels ch = some chd) (hc : c ∈ chd.consumers_)
    (h : Channel.destruct w ch = some w') :
    ∃ cd, w.consumers c = some cd ∧ w'.consumers c = some ⟨none, cd.state_⟩ := by
  obtain ⟨chd0, hchd0, -, -, hin, -⟩ := destruct_channel_spec h
  rw [hch] at hchd0
  cases hchd0
  exact hin c hc

/-- Claim C6: for every Channel `ch` whose producer is `p`, destroying `p`
causes `ch.producer()` to return none and leaves `ch`'s consumers collection
unchanged, and `ch` remains usable: a new Producer `p2` can subsequently be
bound to `ch` and its produce calls reach `ch`'s consumers. -/
theorem C6_producer_destruct {State : Type} [Inhabited State] {w w' : World State}
    {p : Nat} {pd : ProducerData} {ch : Nat} {chd : ChannelData} {p2 : Nat} {s : State}
    (hp : w.producers p = some pd) (h : Producer.destruct w p = some w')
    (hch : ch ∈ pd.channels_) (hchd : w.channels ch = some chd)
    (hfresh : w'.producers p2 = none)
    (hlive : ∀ c ∈ chd.consumers_, (w.consumers c).isSome) :
    w'.producers p = none ∧
    w'.channels ch = some ⟨chd.consumers_, none⟩ ∧
    ∃ w'', Producer.construct w' p2 ch = some w'' ∧
      w''.channels ch = some ⟨chd.consumers_, some p2⟩ ∧
      ∃ w3 tr, Producer.produce w'' p2 s = some (w3, tr) ∧
        ∀ c ∈ chd.consumers_, ∃ cd', w3.consumers c = some cd' ∧ cd'.state_ = s := by
  obtain ⟨pd0, hpd0, hpr, hco, hout, hin⟩ := destruct_producer_spec h
  rw [hp] at hpd0
  cases hpd0
  obtain ⟨chd1, hchd1, hch'⟩ := hin ch hch
  rw [hchd] at hchd1
  cases hchd1
  refine ⟨by rw [hpr, upd_self], hch', ?_⟩
  have hw'' := construct_producer_run hfresh hch'
  refine ⟨_, hw'', ?_, ?_⟩
  · show upd w'.channels ch _ ch = _
    rw [upd_self]
  have hp'' : (⟨upd w'.channels ch (some ⟨(⟨chd.consumers_, none⟩ : ChannelData).consumers_, some p2⟩),
      upd w'.producers p2 (some ⟨[ch]⟩), w'.consumers⟩ : World State).producers p2 =
      some ⟨[ch]⟩ := by
    show upd w'.producers p2 _ p2 = _
    rw [upd_self]
  have hlive'' : ∀ ch' ∈ [ch], ∃ chd', (⟨upd w'.channels ch
        (some ⟨(⟨chd.consumers_, none⟩ : ChannelData).consumers_, some p2⟩),
      upd w'.producers p2 (some ⟨[ch]⟩), w'.consumers⟩ : World State).channels ch' =
        some chd' ∧
      ∀ c ∈ chd'.consumers_, ((⟨upd w'.channels ch
        (some ⟨(⟨chd.consumers_, none⟩ : ChannelData).consumers_, some p2⟩),
      upd w'.producers p2 (some ⟨[ch]⟩), w'.consumers⟩ : World State).consumers c).isSome := by
    intro ch' hm
    rw [List.mem_singleton] at hm
    refine ⟨⟨chd.consumers_, some p2⟩, ?_, ?_⟩
    · rw [hm]
      show upd w'.channels ch _ ch = _
      rw [upd_self]
    · intro c hc
      show (w'.consumers c).isSome
      rw [hco]
      exact hlive c hc
  have hsome := produce_isSome (s := s) hp'' hlive''
  cases hprod : Producer.produce (⟨upd w'.channels ch
        (some ⟨(⟨chd.consumers_, none⟩ : ChannelData).consumers_, some p2⟩),
      upd w'.producers p2 (some ⟨[ch]⟩), w'.consumers⟩ : World State) p2 s with
  | none => rw [hprod] at hsome; exact absurd hsome (by simp)
  | some r =>
    have hprod' : Producer.produce (⟨upd w'.channels ch
          (some ⟨(⟨chd.consumers_, none⟩ : ChannelData).consumers_, some p2⟩),
        upd w'.producers p2 (some ⟨[ch]⟩), w'.consumers⟩ : World State) p2 s =
        some (r.1, r.2) := by
      rw [Prod.mk.eta]; exact hprod
    refine ⟨r.1, r.2, by rw [Prod.mk.eta], ?_⟩
    intro c hc
    exact produce_delivers hprod' hp'' ch (List.mem_singleton.mpr rfl)
      ⟨chd.consumers_, some p2⟩ (by show upd w'.channels ch _ ch = _; rw [upd_self]) c hc

/-- Claim C7: for every Channel `ch` with Consumers `c1` and `c2` registered,
destroying `c1` removes `c1` from `ch`'s consumers collection and leaves
`c2`'s registration and behaviour unchanged: a subsequent produce on `ch`'s
Producer still updates `c2`'s cached state. -/
theorem C7_consumer_destruct_frame {State : Type} {w w' : World State}
    {c1 c2 ch : Nat} {cd1 : ConsumerData State} {chd : ChannelData}
    (hc1 : w.consumers c1 = some cd1) (hb1 : cd1.channel_ = some ch)
    (hchd : w.channels ch = some chd) (hc2 : c2 ∈ chd.consumers_) (hne : c2 ≠ c1)
    (h : Consumer.destruct w c1 = some w') :
    w'.channels ch = some ⟨chd.consumers_.filter (fun x => x ≠ c1), chd.producer_⟩ ∧
    c1 ∉ chd.consumers_.filter (fun x => x ≠ c1) ∧
    c2 ∈ chd.consumers_.filter (fun x => x ≠ c1) ∧
    w'.consumers c2 = w.consumers c2 ∧
    (∀ p pd s w2 tr, w'.producers p = some pd → ch ∈ pd.channels_ →
      Producer.produce w' p s = some (w2, tr) →
      ∃ cd', w2.consumers c2 = some cd' ∧ cd'.state_ = s) := by
  obtain ⟨cd0, hcd0, hco, hpr, hcase⟩ := destruct_consumer_spec h
  rw [hc1] at hcd0
  cases hcd0
  rcases hcase with ⟨hnone, -⟩ | ⟨ch0, chd0, hch0, hchd0, hc⟩
  · rw [hb1] at hnone
    exact Option.noConfusion hnone
  · rw [hb1] at hch0
    cases hch0
    rw [hchd] at hchd0
    cases hchd0
    have hchw' : w'.channels ch = some ⟨chd.consumers_.filter (fun x => x ≠ c1), chd.producer_⟩ := by
      rw [hc, upd_self]
    have hmem2 : c2 ∈ chd.consumers_.filter (fun x => x ≠ c1) := by
      simp only [List.mem_filter]
      exact ⟨hc2, by simpa using hne⟩
    refine ⟨hchw', by simp [List.mem_filter], hmem2, by rw [hco, upd_ne _ _ _ hne], ?_⟩
    intro p pd s w2 tr hp hm hprod
    exact produce_delivers hprod hp ch hm
      ⟨chd.consumers_.filter (fun x => x ≠ c1), chd.producer_⟩ hchw' c2 hmem2

/-- Claim C8: for every Channel `ch` currently bound to Producer `p1`, calling
`ch.set_producer(p2)` for a different Producer `p2` sets `ch.producer()` to
`p2` and appends `ch` to `p2`'s channels collection, while leaving `p1`'s
channels collection unchanged (`ch` is still an element of `p1.channels()`
afterwards). -/
theorem C8_set_producer_rebind {State : Type} {w w' : World State} {ch p1 p2 : Nat}
    {chd : ChannelData} {pd1 pd2 : ProducerData}
    (hchd : w.channels ch = some chd) (hb : chd.producer_ = some p1)
    (hp1 : w.producers p1 = some pd1) (hp2 : w.producers p2 = some pd2) (hne : p1 ≠ p2)
    (hm : ch ∈ pd1.channels_)
    (h : Channel.set_producer w ch (some p2) = some w') :
    w'.channels ch = some ⟨chd.consumers_, some p2⟩ ∧
    w'.producers p2 = some ⟨pd2.channels_ ++ [ch]⟩ ∧
    w'.producers p1 = some pd1 ∧ ch ∈ pd1.channels_ := by
  obtain ⟨chd', pd', hchd', hpd', hc, hp, hco⟩ := set_producer_some_spec h
  rw [hchd] at hchd'
  cases hchd'
  rw [hp2] at hpd'
  cases hpd'
  exact ⟨by rw [hc, upd_self], by rw [hp, upd_self],
    by rw [hp, upd_ne _ _ _ hne]; exact hp1, hm⟩

/-- Claim C10: for every Channel `ch` bound to Producer `p`, after calling
`ch.set_producer(none)`, `ch.producer()` returns none, yet `ch` remains in
`p`'s channels collection, so a subsequent `p.produce(S)` still delivers `S`
to every Consumer registered on `ch`. -/
theorem C10_unbound_channel_still_delivers {State : Type} {w w' : World State}
    {ch p : Nat} {chd : ChannelData} {pd : ProducerData}
    (hchd : w.channels ch = some chd) (hp : w.producers p = some pd)
    (hm : ch ∈ pd.channels_)
    (h : Channel.set_producer w ch none = some w') :
    w'.channels ch = some ⟨chd.consumers_, none⟩ ∧
    w'.producers p = some pd ∧
    (∀ s w2 tr, Producer.produce w' p s = some (w2, tr) →
      ∀ c ∈ chd.consumers_, ∃ cd', w2.consumers c = some cd' ∧ cd'.state_ = s) := by
  obtain ⟨chd', hchd', hc, hpr, hco⟩ := set_producer_none_spec h
  rw [hchd] at hchd'
  cases hchd'
  refine ⟨by rw [hc, upd_self], by rw [hpr]; exact hp, ?_⟩
  intro s w2 tr hprod c hcm
  exact produce_delivers hprod (by rw [hpr]; exact hp) ch hm
    ⟨chd.consumers_, none⟩ (by rw [hc, upd_self]) c hcm

/-- Claim C9: for every Consumer in a reachable world, once its bound Channel
has been destroyed (the consumer's `channel_` is none), `channel()` returns
none at every later point at which the consumer is still alive and its
identifier is not reused, the consumer never transitions back to a bound
state, and its cached state is never modified by any later operation
(in particular by any later produce call on any Producer). -/
theorem C9_severed_permanent {State : Type} [Inhabited State] {w w' : World State}
    {c : Nat} {cd cd' : ConsumerData State} {ops : List (Op State)}
    (hreach : Reachable w) (hc : w.consumers c = some cd) (hsev : cd.channel_ = none)
    (hops : ∀ ch', Op.newConsumer c ch' ∉ ops) (hrun : runFrom w ops = some w')
    (hc' : w'.consumers c = some cd') :
    cd'.channel_ = none ∧ cd'.state_ = cd.state_ := by
  have hcc := Reachable_ChanCons hreach
  have hs : SeveredFrozen c cd.state_ w := by
    intro cd0 hcd0
    rw [hc] at hcd0
    cases hcd0
    exact ⟨hsev, rfl⟩
  exact severedFrozen_runFrom ops hcc hs hrun hops cd' hc'

/-- Claim C1, counterexample: it is not true that every reachable world
satisfies the no-dangling-reference invariant.  After
`Channel ch; Producer p(ch); ch.set_producer(nullptr); ch.~Channel()` the
live producer `p`'s `channels_` still contains a pointer to the destroyed
channel: `set_producer(nullptr)` does not remove the channel from the old
producer's collection, and the channel destructor skips
`internal_remove_channel` because its `producer_` is already null. -/
theorem C1_counterexample :
    ¬ (∀ w : World Nat, Reachable w → NoDangling w) := by
  intro hclaim
  have hs : (run ([.newChannel 0, .newProducer 0 0, .setProducer 0 none,
      .delChannel 0] : List (Op Nat))).isSome = true := by decide
  obtain ⟨w, hw⟩ := Option.isSome_iff_exists.mp hs
  have hnd := hclaim w ⟨_, hw⟩
  have hpd : w.producers 0 = some ⟨[0]⟩ := by
    have h1 : (run ([.newChannel 0, .newProducer 0 0, .setProducer 0 none,
        .delChannel 0] : List (Op Nat))).map (fun x => x.producers 0) =
        some (some ⟨[0]⟩) := by decide
    rw [hw] at h1
    simpa using h1
  have hch : w.channels 0 = none := by
    have h1 : (run ([.newChannel 0, .newProducer 0 0, .setProducer 0 none,
        .delChannel 0] : List (Op Nat))).map (fun x => x.channels 0) =
        some none := by decide
    rw [hw] at h1
    simpa using h1
  have hdangle := hnd.1 0 ⟨[0]⟩ hpd 0 (List.mem_singleton.mpr rfl)
  rw [hch] at hdangle
  exact absurd hdangle (by simp)

/-- Claim C1, amended: in every world reachable through operation sequences
in which a channel is only ever handed to `set_producer` (directly or via the
`Producer` constructor) while no live producer's `channels_` collection
contains it, no live participant holds a reference to a destroyed
participant: every pointer in a live Producer's channels collection refers to
a live Channel, every pointer in a live Channel's consumers collection and
its producer field refers to a live Consumer/Producer, and every live
Consumer's channel field is either none or refers to a live Channel. -/
theorem C1_no_dangling {State : Type} [Inhabited State] :
    ∀ w : World State, SafeReach w → NoDangling w :=
  fun _ h => (SafeReach_WF h).noDangling

/-! ## Concrete witnesses -/

/-- Witness for C2: producer 5 linked to channels 0 and 1; channel 0 carries
consumers 0 and 1, channel 1 carries consumer 2; producing 9 updates consumer
2 and the delivery order is 0, 1, 2. -/
theorem C2_witness :
    ∃ (w' : World Nat) (tr : List (Nat × Nat × Nat)),
      Producer.produce
        (⟨upd (upd (fun _ => none) 0 (some ⟨[0, 1], some 5⟩)) 1 (some ⟨[2], some 5⟩),
          upd (fun _ => none) 5 (some ⟨[0, 1]⟩),
          upd (upd (upd (fun _ => none) 0 (some ⟨some 0, 3⟩)) 1 (some ⟨some 0, 4⟩)) 2
            (some ⟨some 1, 0⟩)⟩ : World Nat) 5 9 = some (w', tr) ∧
      (∃ cd', w'.consumers 2 = some cd' ∧ cd'.state_ = 9) ∧
      tr.map Prod.fst = [0, 1, 2] := by
  have hsome : (Producer.produce
      (⟨upd (upd (fun _ => none) 0 (some ⟨[0, 1], some 5⟩)) 1 (some ⟨[2], some 5⟩),
          upd (fun _ => none) 5 (some ⟨[0, 1]⟩),
          upd (upd (upd (fun _ => none) 0 (some ⟨some 0, 3⟩)) 1 (some ⟨some 0, 4⟩)) 2
            (some ⟨some 1, 0⟩)⟩ : World Nat) 5 9).isSome = true := by decide
  obtain ⟨r, hr⟩ := Option.isSome_iff_exists.mp hsome
  have hr' : Producer.produce
      (⟨upd (upd (fun _ => none) 0 (some ⟨[0, 1], some 5⟩)) 1 (some ⟨[2], some 5⟩),
          upd (fun _ => none) 5 (some ⟨[0, 1]⟩),
          upd (upd (upd (fun _ => none) 0 (some ⟨some 0, 3⟩)) 1 (some ⟨some 0, 4⟩)) 2
            (some ⟨some 1, 0⟩)⟩ : World Nat) 5 9 = some (r.1, r.2) := by
    rw [Prod.mk.eta]
    exact hr
  have hp : ((⟨upd (upd (fun _ => none) 0 (some ⟨[0, 1], some 5⟩)) 1 (some ⟨[2], some 5⟩),
          upd (fun _ => none) 5 (some ⟨[0, 1]⟩),
          upd (upd (upd (fun _ => none) 0 (some ⟨some 0, 3⟩)) 1 (some ⟨some 0, 4⟩)) 2
            (some ⟨some 1, 0⟩)⟩ : World Nat)).producers 5 = some ⟨[0, 1]⟩ := by decide
  obtain ⟨hdel, htr⟩ := C2_produce_fanout hp hr'
  refine ⟨r.1, r.2, hr', ?_, ?_⟩
  · exact hdel 1 (by decide) ⟨[2], some 5⟩ (by decide) 2 (by decide)
  · rw [htr]
    decide

/-- Witness for C3: delivering 9 on a channel with consumers 0 and 1 (cached
states 3 and 4) records a hook event in which consumer 1 still observed its
old state 4, and afterwards consumer 1 caches 9. -/
theorem C3_witness :
    ∃ (w' : World Nat) (tr : List (Nat × Nat × Nat)),
      Channel.internal_produce
        (⟨upd (fun _ => none) 0 (some ⟨[0, 1], none⟩),
          fun _ => none,
          upd (upd (fun _ => none) 0 (some ⟨some 0, 3⟩)) 1 (some ⟨some 0, 4⟩)⟩ : World Nat) 0 9 = some (w', tr) ∧
      ∃ cd, ((⟨upd (fun _ => none) 0 (some ⟨[0, 1], none⟩),
          fun _ => none,
          upd (upd (fun _ => none) 0 (some ⟨some 0, 3⟩)) 1 (some ⟨some 0, 4⟩)⟩ : World Nat)).consumers 1 = some cd ∧
        (1, cd.state_, 9) ∈ tr ∧ w'.consumers 1 = some ⟨cd.channel_, 9⟩ := by
  have hsome : (Channel.internal_produce
      (⟨upd (fun _ => none) 0 (some ⟨[0, 1], none⟩),
          fun _ => none,
          upd (upd (fun _ => none) 0 (some ⟨some 0, 3⟩)) 1 (some ⟨some 0, 4⟩)⟩ : World Nat) 0 9).isSome = true := by decide
  obtain ⟨r, hr⟩ := Option.isSome_iff_exists.mp hsome
  have hr' : Channel.internal_produce
      (⟨upd (fun _ => none) 0 (some ⟨[0, 1], none⟩),
          fun _ => none,
          upd (upd (fun _ => none) 0 (some ⟨some 0, 3⟩)) 1 (some ⟨some 0, 4⟩)⟩ : World Nat) 0 9 = some (r.1, r.2) := by
    rw [Prod.mk.eta]
    exact hr
  have hch : ((⟨upd (fun _ => none) 0 (some ⟨[0, 1], none⟩),
          fun _ => none,
          upd (upd (fun _ => none) 0 (some ⟨some 0, 3⟩)) 1 (some ⟨some 0, 4⟩)⟩ : World Nat)).channels 0 = some ⟨[0, 1], none⟩ := by decide
  exact ⟨r.1, r.2, hr', C3_hook_order hch (by decide) (by decide) hr'⟩

/-- Witness for C5: destroying channel 0 severs its consumer 1, which keeps
its cached state 7. -/
theorem C5_witness :
    ∃ w' : World Nat,
      Channel.destruct
        (⟨upd (fun _ => none) 0 (some ⟨[1], none⟩),
          fun _ => none,
          upd (fun _ => none) 1 (some ⟨some 0, 7⟩)⟩ : World Nat) 0 = some w' ∧
      ∃ cd, ((⟨upd (fun _ => none) 0 (some ⟨[1], none⟩),
          fun _ => none,
          upd (fun _ => none) 1 (some ⟨some 0, 7⟩)⟩ : World Nat)).consumers 1 = some cd ∧
        w'.consumers 1 = some ⟨none, cd.state_⟩ := by
  have hsome : (Channel.destruct
      (⟨upd (fun _ => none) 0 (some ⟨[1], none⟩),
          fun _ => none,
          upd (fun _ => none) 1 (some ⟨some 0, 7⟩)⟩ : World Nat) 0).isSome = true := by decide
  obtain ⟨w', hw'⟩ := Option.isSome_iff_exists.mp hsome
  have hch : ((⟨upd (fun _ => none) 0 (some ⟨[1], none⟩),
          fun _ => none,
          upd (fun _ => none) 1 (some ⟨some 0, 7⟩)⟩ : World Nat)).channels 0 = some ⟨[1], none⟩ := by decide
  exact ⟨w', hw', C5_channel_destruct_severs hch (by decide) hw'⟩

/-- Witness for C6: destroying producer 0 (bound to channel 0 with consumer 0)
clears channel 0's producer and keeps its consumer; producer 1 can then be
bound to channel 0 and producing 7 reaches consumer 0. -/
theorem C6_witness :
    ∃ w' : World Nat,
      Producer.destruct
        (⟨upd (fun _ => none) 0 (some ⟨[0], some 0⟩),
          upd (fun _ => none) 0 (some ⟨[0]⟩),
          upd (fun _ => none) 0 (some ⟨some 0, 0⟩)⟩ : World Nat) 0 = some w' ∧
      w'.producers 0 = none ∧ w'.channels 0 = some ⟨[0], none⟩ ∧
      ∃ w'', Producer.construct w' 1 0 = some w'' ∧
        w''.channels 0 = some ⟨[0], some 1⟩ ∧
        ∃ w3 tr, Producer.produce w'' 1 7 = some (w3, tr) ∧
          ∃ cd', w3.consumers 0 = some cd' ∧ cd'.state_ = 7 := by
  have hsome : (Producer.destruct
      (⟨upd (fun _ => none) 0 (some ⟨[0], some 0⟩),
          upd (fun _ => none) 0 (some ⟨[0]⟩),
          upd (fun _ => none) 0 (some ⟨some 0, 0⟩)⟩ : World Nat) 0).isSome = true := by decide
  obtain ⟨w', hw'⟩ := Option.isSome_iff_exists.mp hsome
  have hp : ((⟨upd (fun _ => none) 0 (some ⟨[0], some 0⟩),
          upd (fun _ => none) 0 (some ⟨[0]⟩),
          upd (fun _ => none) 0 (some ⟨some 0, 0⟩)⟩ : World Nat)).producers 0 = some ⟨[0]⟩ := by decide
  have hchd : ((⟨upd (fun _ => none) 0 (some ⟨[0], some 0⟩),
          upd (fun _ => none) 0 (some ⟨[0]⟩),
          upd (fun _ => none) 0 (some ⟨some 0, 0⟩)⟩ : World Nat)).channels 0 = some ⟨[0], some 0⟩ := by decide
  have hfresh : w'.producers 1 = none := by
    obtain ⟨pd0, hpd0, hpr, -, -, -⟩ := destruct_producer_spec hw'
    rw [hpr, upd_ne _ _ _ (by decide : (1 : Nat) ≠ 0)]
    decide
  obtain ⟨h1, h2, w'', hw'', h3, w3, tr, h4, h5⟩ :=
    C6_producer_destruct hp hw' (by decide) hchd hfresh (by decide)
  exact ⟨w', hw', h1, h2, w'', hw'', h3, w3, tr, h4, h5 0 (by decide)⟩

/-- Witness for C7: destroying consumer 1 removes it from channel 0's
collection, leaves sibling consumer 2 untouched, and producing 9 through
producer 5 still updates consumer 2. -/
theorem C7_witness :
    ∃ w' : World Nat,
      Consumer.destruct
        (⟨upd (fun _ => none) 0 (some ⟨[1, 2], some 5⟩),
          upd (fun _ => none) 5 (some ⟨[0]⟩),
          upd (upd (fun _ => none) 1 (some ⟨some 0, 0⟩)) 2 (some ⟨some 0, 0⟩)⟩ : World Nat) 1 = some w' ∧
      w'.channels 0 = some ⟨[2], some 5⟩ ∧
      w'.consumers 2 = ((⟨upd (fun _ => none) 0 (some ⟨[1, 2], some 5⟩),
          upd (fun _ => none) 5 (some ⟨[0]⟩),
          upd (upd (fun _ => none) 1 (some ⟨some 0, 0⟩)) 2 (some ⟨some 0, 0⟩)⟩ : World Nat)).consumers 2 ∧
      ∃ w2 tr, Producer.produce w' 5 9 = some (w2, tr) ∧
        ∃ cd', w2.consumers 2 = some cd' ∧ cd'.state_ = 9 := by
  have hsome : (Consumer.destruct
      (⟨upd (fun _ => none) 0 (some ⟨[1, 2], some 5⟩),
          upd (fun _ => none) 5 (some ⟨[0]⟩),
          upd (upd (fun _ => none) 1 (some ⟨some 0, 0⟩)) 2 (some ⟨some 0, 0⟩)⟩ : World Nat) 1).isSome = true := by decide
  obtain ⟨w', hw'⟩ := Option.isSome_iff_exists.mp hsome
  have hc1 : ((⟨upd (fun _ => none) 0 (some ⟨[1, 2], some 5⟩),
          upd (fun _ => none) 5 (some ⟨[0]⟩),
          upd (upd (fun _ => none) 1 (some ⟨some 0, 0⟩)) 2 (some ⟨some 0, 0⟩)⟩ : World Nat)).consumers 1 = some ⟨some 0, 0⟩ := by decide
  have hchd : ((⟨upd (fun _ => none) 0 (some ⟨[1, 2], some 5⟩),
          upd (fun _ => none) 5 (some ⟨[0]⟩),
          upd (upd (fun _ => none) 1 (some ⟨some 0, 0⟩)) 2 (some ⟨some 0, 0⟩)⟩ : World Nat)).channels 0 = some ⟨[1, 2], some 5⟩ := by decide
  have hc2m : (2 : Nat) ∈ (⟨[1, 2], some 5⟩ : ChannelData).consumers_ := by decide
  have hne2 : (2 : Nat) ≠ 1 := by decide
  obtain ⟨hch', hnotm, hmem, hunch, hprodgen⟩ :=
    C7_consumer_destruct_frame hc1 rfl hchd hc2m hne2 hw'
  have hfil : ([1, 2].filter (fun x => x ≠ 1) : List Nat) = [2] := by decide
  rw [hfil] at hch'
  have hp' : w'.producers 5 = some ⟨[0]⟩ := by
    obtain ⟨cd0, -, -, hpr, -⟩ := destruct_consumer_spec hw'
    rw [hpr]
    decide
  have hlive' : ∀ ch ∈ ([0] : List Nat), ∃ chd', w'.channels ch = some chd' ∧
      ∀ c ∈ chd'.consumers_, (w'.consumers c).isSome := by
    intro ch hm
    rw [List.mem_singleton] at hm
    rw [hm]
    refine ⟨⟨[2], some 5⟩, hch', ?_⟩
    intro c hcm
    rw [List.mem_singleton] at hcm
    rw [hcm, hunch]
    decide
  have hps : (Producer.produce w' 5 9).isSome := produce_isSome hp' hlive'
  obtain ⟨r, hr⟩ := Option.isSome_iff_exists.mp hps
  have hr' : Producer.produce w' 5 9 = some (r.1, r.2) := by
    rw [Prod.mk.eta]
    exact hr
  refine ⟨w', hw', hch', hunch, r.1, r.2, hr', ?_⟩
  have := hprodgen 5 ⟨[0]⟩ 9 r.1 r.2 hp' (by decide) hr'
  exact this

/-- Witness for C8: rebinding channel 0 (bound to producer 1, which lists it)
to producer 2 appends channel 0 to producer 2's collection while producer 1
still lists channel 0. -/
theorem C8_witness :
    ∃ w' : World Nat,
      Channel.set_producer
        (⟨upd (fun _ => none) 0 (some ⟨[], some 1⟩),
          upd (upd (fun _ => none) 1 (some ⟨[0]⟩)) 2 (some ⟨[]⟩),
          fun _ => none⟩ : World Nat) 0 (some 2) = some w' ∧
      w'.channels 0 = some ⟨[], some 2⟩ ∧
      w'.producers 2 = some ⟨[0]⟩ ∧
      w'.producers 1 = some ⟨[0]⟩ := by
  have hsome : (Channel.set_producer
      (⟨upd (fun _ => none) 0 (some ⟨[], some 1⟩),
          upd (upd (fun _ => none) 1 (some ⟨[0]⟩)) 2 (some ⟨[]⟩),
          fun _ => none⟩ : World Nat) 0 (some 2)).isSome = true := by decide
  obtain ⟨w', hw'⟩ := Option.isSome_iff_exists.mp hsome
  have hchd : ((⟨upd (fun _ => none) 0 (some ⟨[], some 1⟩),
          upd (upd (fun _ => none) 1 (some ⟨[0]⟩)) 2 (some ⟨[]⟩),
          fun _ => none⟩ : World Nat)).channels 0 = some ⟨[], some 1⟩ := by decide
  have hp1 : ((⟨upd (fun _ => none) 0 (some ⟨[], some 1⟩),
          upd (upd (fun _ => none) 1 (some ⟨[0]⟩)) 2 (some ⟨[]⟩),
          fun _ => none⟩ : World Nat)).producers 1 = some ⟨[0]⟩ := by decide
  have hp2 : ((⟨upd (fun _ => none) 0 (some ⟨[], some 1⟩),
          upd (upd (fun _ => none) 1 (some ⟨[0]⟩)) 2 (some ⟨[]⟩),
          fun _ => none⟩ : World Nat)).producers 2 = some ⟨[]⟩ := by decide
  obtain ⟨h1, h2, h3, -⟩ :=
    C8_set_producer_rebind hchd rfl hp1 hp2 (by decide) (by decide) hw'
  exact ⟨w', hw', h1, h2, h3⟩

/-- Witness for C10: after clearing channel 0's producer with
`set_producer(nullptr)`, producer 2 still lists channel 0 and producing 6
still updates channel 0's consumer 4. -/
theorem C10_witness :
    ∃ w' : World Nat,
      Channel.set_producer
        (⟨upd (fun _ => none) 0 (some ⟨[4], some 2⟩),
          upd (fun _ => none) 2 (some ⟨[0]⟩),
          upd (fun _ => none) 4 (some ⟨some 0, 0⟩)⟩ : World Nat) 0 none = some w' ∧
      w'.channels 0 = some ⟨[4], none⟩ ∧
      w'.producers 2 = some ⟨[0]⟩ ∧
      ∃ w2 tr, Producer.produce w' 2 6 = some (w2, tr) ∧
        ∃ cd', w2.consumers 4 = some cd' ∧ cd'.state_ = 6 := by
  have hsome : (Channel.set_producer
      (⟨upd (fun _ => none) 0 (some ⟨[4], some 2⟩),
          upd (fun _ => none) 2 (some ⟨[0]⟩),
          upd (fun _ => none) 4 (some ⟨some 0, 0⟩)⟩ : World Nat) 0 none).isSome = true := by decide
  obtain ⟨w', hw'⟩ := Option.isSome_iff_exists.mp hsome
  have hchd : ((⟨upd (fun _ => none) 0 (some ⟨[4], some 2⟩),
          upd (fun _ => none) 2 (some ⟨[0]⟩),
          upd (fun _ => none) 4 (some ⟨some 0, 0⟩)⟩ : World Nat)).channels 0 = some ⟨[4], some 2⟩ := by decide
  have hp : ((⟨upd (fun _ => none) 0 (some ⟨[4], some 2⟩),
          upd (fun _ => none) 2 (some ⟨[0]⟩),
          upd (fun _ => none) 4 (some ⟨some 0, 0⟩)⟩ : World Nat)).producers 2 = some ⟨[0]⟩ := by decide
  obtain ⟨h1, h2, h3⟩ := C10_unbound_channel_still_delivers hchd hp (by decide) hw'
  have hlive' : ∀ ch ∈ ([0] : List Nat), ∃ chd', w'.channels ch = some chd' ∧
      ∀ c ∈ chd'.consumers_, (w'.consumers c).isSome := by
    intro ch hm
    rw [List.mem_singleton] at hm
    rw [hm]
    refine ⟨⟨[4], none⟩, h1, ?_⟩
    intro c hcm
    rw [List.mem_singleton] at hcm
    obtain ⟨chd', -, -, -, hco⟩ := set_producer_none_spec hw'
    rw [hcm, hco]
    decide
  have hps : (Producer.produce w' 2 6).isSome := produce_isSome h2 hlive'
  obtain ⟨r, hr⟩ := Option.isSome_iff_exists.mp hps
  have hr' : Producer.produce w' 2 6 = some (r.1, r.2) := by
    rw [Prod.mk.eta]
    exact hr
  exact ⟨w', hw', h1, h2, r.1, r.2, hr', h3 6 r.1 r.2 hr' 4 (by decide)⟩

/-- Witness for C9: consumer 0 is severed by destroying its channel; after a
further run that creates a fresh channel, producer and consumer and produces
the value 5, consumer 0 still reports no channel and still caches its old
state. -/
theorem C9_witness :
    ∃ (w w' : World Nat) (cd cd' : ConsumerData Nat),
      run ([.newChannel 0, .newConsumer 0 0, .delChannel 0] : List (Op Nat)) = some w ∧
      w.consumers 0 = some cd ∧ cd.channel_ = none ∧
      runFrom w ([.newChannel 1, .newProducer 3 1, .newConsumer 1 1, .produce 3 5] : List (Op Nat)) = some w' ∧
      w'.consumers 0 = some cd' ∧ cd'.channel_ = none ∧ cd'.state_ = cd.state_ := by
  have hs1 : (run ([.newChannel 0, .newConsumer 0 0, .delChannel 0] : List (Op Nat))).isSome = true := by decide
  obtain ⟨w, hw⟩ := Option.isSome_iff_exists.mp hs1
  have hc : w.consumers 0 = some ⟨none, 0⟩ := by
    have h1 : (run ([.newChannel 0, .newConsumer 0 0, .delChannel 0] : List (Op Nat))).map (fun x => x.consumers 0) = some (some ⟨none, 0⟩) := by decide
    rw [hw] at h1
    simpa using h1
  have hs2 : ((run ([.newChannel 0, .newConsumer 0 0, .delChannel 0] : List (Op Nat))).bind
      (fun x => runFrom x ([.newChannel 1, .newProducer 3 1, .newConsumer 1 1, .produce 3 5] : List (Op Nat)))).isSome = true := by decide
  rw [hw] at hs2
  have hs2' : (runFrom w ([.newChannel 1, .newProducer 3 1, .newConsumer 1 1, .produce 3 5] : List (Op Nat))).isSome = true := hs2
  obtain ⟨w', hw2⟩ := Option.isSome_iff_exists.mp hs2'
  have hc' : w'.consumers 0 = some ⟨none, 0⟩ := by
    have h1 : ((run ([.newChannel 0, .newConsumer 0 0, .delChannel 0] : List (Op Nat))).bind
        (fun x => runFrom x ([.newChannel 1, .newProducer 3 1, .newConsumer 1 1, .produce 3 5] : List (Op Nat)))).map (fun y => y.consumers 0) =
        some (some ⟨none, 0⟩) := by decide
    rw [hw] at h1
    have h1' : (runFrom w ([.newChannel 1, .newProducer 3 1, .newConsumer 1 1, .produce 3 5] : List (Op Nat))).map (fun y => y.consumers 0) =
        some (some ⟨none, 0⟩) := h1
    rw [hw2] at h1'
    simpa using h1'
  have hops : ∀ ch', Op.newConsumer 0 ch' ∉ ([.newChannel 1, .newProducer 3 1, .newConsumer 1 1, .produce 3 5] : List (Op Nat)) := by
    intro ch' hm
    simp at hm
  obtain ⟨h1, h2⟩ := C9_severed_permanent ⟨_, hw⟩ hc rfl hops hw2 hc'
  exact ⟨w, w', ⟨none, 0⟩, ⟨none, 0⟩, hw, hc, rfl, hw2, hc', h1, h2⟩

/-- Witness for C1 (amended): the world holding one freshly constructed
channel, reached by one safe step from the empty world, satisfies the
no-dangling-reference property. -/
theorem C1_witness :
    NoDangling ({ World.empty Nat with
      channels := upd (World.empty Nat).channels 0 (some ⟨[], none⟩) } : World Nat) := by
  have hstep : step (World.empty Nat) (Op.newChannel 0) = some
      ({ World.empty Nat with
        channels := upd (World.empty Nat).channels 0 (some ⟨[], none⟩) } : World Nat) := rfl
  refine C1_no_dangling _ (SafeReach.next SafeReach.empty ?_ hstep)
  exact True.intro

end otto.itc
